import Mathlib

/-!
Verification of the booking-to-task reconciliation engine and the
recurring-series expansion algorithm of the smoobu-staff-planner-pro
repository, as a shallow embedding.

The embedding mirrors `src/app/sync.py` (reconciliation), `src/app/jobs.py`
(date helpers, `_expand_series_occurrences`, `expand_series_job`,
`refresh_bookings_job`) and the data model of `src/app/models.py` plus the
`task_series` table schema of `src/app/db.py`.

Conventions of the embedding:
* Python `datetime.date` values are triples `(year, month, day)` of naturals;
  Python compares dates exactly like the lexicographic order on these triples,
  and `date.toordinal` is the proleptic-Gregorian day number implemented below.
* Dates stored in the database are strings compared with Python string
  comparison, which coincides with the lexicographic order on code points,
  i.e. with Mathlib's linear order on `String`.
* The SQLAlchemy sessions are created with `autoflush=False`
  (`src/app/db.py`), so a query executed inside a pass never sees rows added
  by `session.add` earlier in the same pass; it does see attribute mutations
  of already-loaded rows.  The embedding therefore applies queries to the
  pre-pass task list with in-place updates, and appends pending new rows at
  commit time.
* Loops whose Python counterparts terminate by strictly increasing a date are
  written with an explicit fuel argument that is always at least the number
  of iterations the Python loop performs.
-/

/-! ## Python string primitives

Python compares strings lexicographically by code point and slices them by
code points.  The corresponding Lean library functions are implemented on
byte positions and do not reduce inside the kernel, so the handful of string
operations the source uses are given directly as `List Char` programs with
the same semantics. -/

/-- Python string `<`: lexicographic comparison by code point. -/
def strLtCh : List Char → List Char → Bool
  | [], [] => false
  | [], _ :: _ => true
  | _ :: _, [] => false
  | a :: as, b :: bs => if a < b then true else if b < a then false else strLtCh as bs

/-- Python `s < t`. -/
def strLtB (s t : String) : Bool :=
  strLtCh s.data t.data

/-- Python `s <= t`. -/
def strLeB (s t : String) : Bool :=
  strLtB s t || s == t

/-- The whitespace stripped by Python `str.strip()` (ASCII part). -/
def isPySpace (c : Char) : Bool :=
  c == ' ' || c == '\t' || c == '\n' || c == '\r' || c == Char.ofNat 11 || c == Char.ofNat 12

/-- Python slicing `s[:n]` (by code points). -/
def takeStr (s : String) (n : Nat) : String :=
  ⟨s.data.take n⟩

/-- Python `s.strip()`. -/
def trimStr (s : String) : String :=
  ⟨((s.data.dropWhile isPySpace).reverse.dropWhile isPySpace).reverse⟩

/-- Split on every occurrence of the separator character, like Python
`s.split(sep)` for a one-character separator. -/
def splitChAux (c : Char) : List Char → List Char → List (List Char)
  | [], acc => [acc.reverse]
  | x :: xs, acc =>
    if x == c then acc.reverse :: splitChAux c xs [] else splitChAux c xs (x :: acc)

/-- Python `s.split(c)` for a single-character separator `c`. -/
def splitOnCh (c : Char) (s : String) : List String :=
  (splitChAux c s.data []).map (fun l => ⟨l⟩)

/-- ASCII lowercasing of one character (the source only lowercases ASCII
status and frequency words). -/
def lowerAscii (c : Char) : Char :=
  if 'A' ≤ c && c ≤ 'Z' then Char.ofNat (c.toNat + 32) else c

/-- A non-empty all-digit character list read as a natural number. -/
def digitsToNat? (l : List Char) : Option Nat :=
  if !l.isEmpty && l.all (fun c => c.isDigit) then
    some (l.foldl (fun n c => 10 * n + (c.toNat - 48)) 0)
  else none

/-- Python `int(s)` on strings: strips whitespace, then an optional sign and
digits (digit-group underscores are not modelled; the source only feeds it
comma-separated day numbers). -/
def pyInt? (s : String) : Option Int :=
  match (trimStr s).data with
  | '-' :: rest => (digitsToNat? rest).map (fun n => -(n : Int))
  | '+' :: rest => (digitsToNat? rest).map (fun n => (n : Int))
  | l => (digitsToNat? l).map (fun n => (n : Int))

/-- The maximum of a list of strings under Python string order (`ORDER BY x
DESC LIMIT 1`). -/
def maxStr? : List String → Option String
  | [] => none
  | s :: rest =>
    match maxStr? rest with
    | none => some s
    | some m => some (if strLtB m s then s else m)

/-- Stable insertion: `x` goes before the first element it compares `≤` to,
so equal keys keep their original relative order — the behaviour of
Python's stable `list.sort`. -/
def orderedInsertB (le : α → α → Bool) (x : α) : List α → List α
  | [] => [x]
  | y :: ys => if le x y then x :: y :: ys else y :: orderedInsertB le x ys

/-- Stable insertion sort, matching Python `list.sort(key=...)`. -/
def insertionSortB (le : α → α → Bool) : List α → List α
  | [] => []
  | x :: xs => orderedInsertB le x (insertionSortB le xs)

/-! ## Dates (`datetime.date`, proleptic Gregorian calendar) -/

/-- A Python `datetime.date`: year, month, day. -/
structure Date where
  y : Nat
  m : Nat
  d : Nat
deriving DecidableEq, Repr

/-- Gregorian leap year rule (as used by `calendar.monthrange`). -/
def isLeap (y : Nat) : Bool :=
  (y % 4 == 0 && y % 100 != 0) || (y % 400 == 0)

/-- `calendar.monthrange(y, m)[1]`: the number of days of month `m` of year `y`. -/
def daysInMonth (y m : Nat) : Nat :=
  match m with
  | 2 => if isLeap y then 29 else 28
  | 4 => 30
  | 6 => 30
  | 9 => 30
  | 11 => 30
  | _ => 31

/-- Days of year `y` strictly before month `m`. -/
def daysBeforeMonth (y : Nat) : Nat → Nat
  | 0 => 0
  | 1 => 0
  | m + 2 => daysBeforeMonth y (m + 1) + daysInMonth y (m + 1)

/-- Days strictly before January 1st of year `y` (year 1 starts at ordinal 1). -/
def daysBeforeYear (y : Nat) : Nat :=
  365 * (y - 1) + (y - 1) / 4 - (y - 1) / 100 + (y - 1) / 400

/-- Python's `date.toordinal`: day number with `date(1,1,1).toordinal() = 1`. -/
def toordinal (dt : Date) : Nat :=
  daysBeforeYear dt.y + daysBeforeMonth dt.y dt.m + dt.d

/-- The date is one `datetime.date` accepts. -/
def Date.Valid (dt : Date) : Prop :=
  1 ≤ dt.y ∧ 1 ≤ dt.m ∧ dt.m ≤ 12 ∧ 1 ≤ dt.d ∧ dt.d ≤ daysInMonth dt.y dt.m

instance (dt : Date) : Decidable dt.Valid := by
  unfold Date.Valid; infer_instance

/-- Python `date` comparison `<` (tuple order on (year, month, day)). -/
def dateLtB (a b : Date) : Bool :=
  a.y < b.y || (a.y == b.y && (a.m < b.m || (a.m == b.m && a.d < b.d)))

/-- Python `date` comparison `<=`. -/
def dateLeB (a b : Date) : Bool :=
  dateLtB a b || a == b

/-- Python `min` of two dates (`min(a, b)` returns `b` iff `b < a`). -/
def minDate (a b : Date) : Date :=
  if dateLtB b a then b else a

/-- Python `max` of two dates (`max(a, b)` returns `b` iff `a < b`). -/
def maxDate (a b : Date) : Date :=
  if dateLtB a b then b else a

/-- `d + timedelta(days=1)`. -/
def nextDate (dt : Date) : Date :=
  if dt.d < daysInMonth dt.y dt.m then ⟨dt.y, dt.m, dt.d + 1⟩
  else if dt.m < 12 then ⟨dt.y, dt.m + 1, 1⟩
  else ⟨dt.y + 1, 1, 1⟩

/-- `d + timedelta(days=n)`. -/
def addDays (dt : Date) (n : Nat) : Date :=
  nextDate^[n] dt

/-- Python `date.weekday()`: Monday is 0.  `date(1,1,1)` is a Monday. -/
def weekdayOf (dt : Date) : Nat :=
  (toordinal dt - 1) % 7

/-- `_daterange_iter` of `src/app/jobs.py`, with fuel; the fuel chosen in
`daterange` is exactly the number of loop iterations for valid bounds. -/
def daterangeAux : Nat → Date → Date → List Date
  | 0, _, _ => []
  | fuel + 1, cur, fin =>
    if dateLeB cur fin then cur :: daterangeAux fuel (nextDate cur) fin else []

/-- `list(_daterange_iter(start, fin))`. -/
def daterange (start fin : Date) : List Date :=
  daterangeAux (toordinal fin + 1 - toordinal start) start fin

/-- `_add_months` of `src/app/jobs.py`. -/
def addMonths (dt : Date) (months : Nat) : Date :=
  let y := dt.y + (dt.m - 1 + months) / 12
  let m := (dt.m - 1 + months) % 12 + 1
  ⟨y, m, min dt.d (daysInMonth y m)⟩

/-- Month counter used to bound the monthly loops: `addMonths` advances it by
exactly the number of months added. -/
def monthIndex (dt : Date) : Nat :=
  12 * dt.y + dt.m

/-- Two-digit zero padding for `date.isoformat`. -/
def pad2 (n : Nat) : String :=
  if n < 10 then "0" ++ toString n else toString n

/-- Four-digit zero padding for `date.isoformat`. -/
def pad4 (n : Nat) : String :=
  if n < 10 then "000" ++ toString n
  else if n < 100 then "00" ++ toString n
  else if n < 1000 then "0" ++ toString n
  else toString n

/-- Python `date.isoformat()`. -/
def isoformat (dt : Date) : String :=
  pad4 dt.y ++ "-" ++ pad2 dt.m ++ "-" ++ pad2 dt.d

/-- `_parse_date` of `src/app/jobs.py`: `datetime.strptime(s, "%Y-%m-%d")`,
`None` on failure.  `%Y` matches exactly four digits, `%m`/`%d` one or two
digits within range, and the resulting triple must be a real calendar date. -/
def parseDate (s : String) : Option Date :=
  match splitOnCh '-' s with
  | [ys, ms, ds] =>
    match digitsToNat? ys.data, digitsToNat? ms.data, digitsToNat? ds.data with
    | some y, some m, some d =>
      if ys.length == 4 && (1 ≤ y) && (1 ≤ m && m ≤ 12 && ms.length ≤ 2)
          && (1 ≤ d && ds.length ≤ 2) && d ≤ daysInMonth y m then
        some ⟨y, m, d⟩
      else none
    | _, _, _ => none
  | _ => none

namespace App

/-! ## Data model (`src/app/models.py`; `task_series` schema in `src/app/db.py`) -/

/-- `Booking` ORM model of `src/app/models.py`.  Date columns are
`YYYY-MM-DD` strings; `adults`/`children` are kept optional because the
refresh job stores raw API values that may be absent. -/
structure Booking where
  id : Int
  apartment_id : Option Int
  apartment_name : String
  arrival : String
  departure : String
  nights : Int
  adults : Option Int
  children : Option Int
  guest_comments : String
  guest_name : String
deriving DecidableEq, Repr

/-- `Apartment` ORM model of `src/app/models.py`. -/
structure Apartment where
  id : Int
  name : String
  planned_minutes : Int
  active : Bool
deriving DecidableEq, Repr

/-- `Task` ORM model of `src/app/models.py`.  `id` is the database-assigned
primary key; rows pending insertion are modelled with `id = 0`. -/
structure Task where
  id : Int
  date : String
  start_time : String
  planned_minutes : Int
  notes : Option String
  extras_json : String
  apartment_id : Option Int
  booking_id : Option Int
  assigned_staff_id : Option Int
  assignment_status : Option String
  status : String
  assign_notified_at : Option String
  auto_generated : Bool
  booking_hash : Option String
  next_arrival : Option String
  next_arrival_adults : Option Int
  next_arrival_children : Option Int
  next_arrival_comments : Option String
  next_arrival_guest_name : Option String
  series_id : Option Int
  is_recurring : Bool
deriving DecidableEq, Repr

/-- Modelled from the spec: the `TaskSeries` ORM class is not present under
`src/` (only the `task_series` table schema in `src/app/db.py`, its callers
in `src/app/jobs.py` and `src/app/routers/admin.py`, and spec §3 describe
it).  Fields follow that schema: title/description, optional apartment and
default assignee, planned duration, start date, recurrence frequency,
interval, weekday and month-day sets, optional end date, optional occurrence
count cap, active flag. -/
structure TaskSeries where
  id : Int
  title : String
  description : String
  apartment_id : Option Int
  staff_id : Option Int
  planned_minutes : Option Int
  start_date : String
  start_time : String
  frequency : String
  interval : Option Int
  byweekday : String
  bymonthday : String
  end_date : Option String
  count : Option Int
  active : Bool
deriving DecidableEq, Repr

/-- The database state touched by the jobs under verification. -/
structure DBState where
  tasks : List Task
  bookings : List Booking
  apartments : List Apartment
  series : List TaskSeries
deriving DecidableEq, Repr

/-! ## String helpers matching the Python operations used by the source -/

/-- Python `s.count('-')`. -/
def hyphenCount (s : String) : Nat :=
  s.data.count '-'

/-- Python `s.lower()` (the source only lowercases ASCII status words). -/
def toLowerStr (s : String) : String :=
  ⟨s.data.map lowerAscii⟩

/-- Python truthiness of `s` combined with `s.strip()`: `not s or not s.strip()`. -/
def blankStr (s : String) : Bool :=
  s == "" || trimStr s == ""

/-- Python `f"{x}"` for a nullable integer (`None` prints as `"None"`). -/
def optIntStr (x : Option Int) : String :=
  match x with
  | some n => toString n
  | none => "None"

/-! ## `src/app/sync.py` -/

/-- Payload of `compute_booking_hash`.  The SHA-1 hex digest itself is
modelled as the payload string: every claim under verification depends only
on the hash being a deterministic function of exactly these six fields. -/
def computeBookingHash (b : Booking) : String :=
  optIntStr b.apartment_id ++ "|" ++ b.arrival ++ "|" ++ b.departure ++ "|"
    ++ optIntStr b.adults ++ "|" ++ optIntStr b.children ++ "|" ++ b.guest_comments

/-- The quintuple stored in `next_info` by `_index_next_arrivals`. -/
structure NextInfo where
  arrival : Option String
  adults : Option Int
  children : Option Int
  comments : Option String
  guest_name : Option String
deriving DecidableEq, Repr

/-- `(None, None, None, None, None)`. -/
def noneInfo : NextInfo :=
  ⟨none, none, none, none, none⟩

/-- Sort key order used by `by_apt[k].sort(key=lambda x: (x.arrival, x.departure))`:
Python tuple comparison on the two strings. -/
def keyLeB (a b : Booking) : Bool :=
  strLtB a.arrival b.arrival || (a.arrival == b.arrival && strLeB a.departure b.departure)

/-- First-occurrence deduplication, tracking already-seen keys. -/
def dedupFirstAux [BEq α] (seen : List α) : List α → List α
  | [] => []
  | a :: as =>
    if seen.contains a then dedupFirstAux seen as
    else a :: dedupFirstAux (a :: seen) as

/-- The distinct apartment keys of the bookings in first-appearance order:
the iteration order of the `defaultdict` built by `_index_next_arrivals`. -/
def aptKeys (bookings : List Booking) : List (Option Int) :=
  dedupFirstAux [] (bookings.map (·.apartment_id))

/-- One apartment group, in insertion order (`by_apt[k]`). -/
def aptGroup (bookings : List Booking) (k : Option Int) : List Booking :=
  bookings.filter (fun b => b.apartment_id == k)

/-- The group after `sort(key=lambda x: (x.arrival, x.departure))`; Python's
sort is stable, which insertion sort with a non-strict key order matches. -/
def sortedGroup (bookings : List Booking) (k : Option Int) : List Booking :=
  insertionSortB keyLeB (aptGroup bookings k)

/-- The generator condition inside
`next((nb for nb in arr if nb.arrival >= b.departure and nb.id != b.id), None)`. -/
def nextPred (b nb : Booking) : Bool :=
  strLeB b.departure nb.arrival && nb.id != b.id

/-- The `next_info` entry computed for booking `b` within its sorted group. -/
def nextInfoFor (arr : List Booking) (b : Booking) : NextInfo :=
  match arr.find? (nextPred b) with
  | some nb => ⟨some nb.arrival, nb.adults, nb.children, some nb.guest_comments, some nb.guest_name⟩
  | none => noneInfo

/-- `_index_next_arrivals` as an association list in assignment order. -/
def nextInfoList (bookings : List Booking) : List (Int × NextInfo) :=
  (aptKeys bookings).flatMap (fun k =>
    (sortedGroup bookings k).map (fun b => (b.id, nextInfoFor (sortedGroup bookings k) b)))

/-- Python dict lookup with overwrite-on-reassignment: the last entry wins;
`next_map.get(bid, (None,)*5)` defaults to all-`None`. -/
def nextMapGet (bookings : List Booking) (bid : Int) : NextInfo :=
  match (nextInfoList bookings).reverse.find? (fun p => p.1 == bid) with
  | some p => p.2
  | none => noneInfo

/-- `get_planned_minutes_for` of `src/app/sync.py` (default 90); looks the
apartment up in the database table. -/
def getPlannedMinutesFor (apartments : List Apartment) (apartment_id : Option Int) : Int :=
  match apartment_id with
  | some aid =>
    if aid != 0 then
      match apartments.find? (fun a => a.id == aid) with
      | some apt => if apt.planned_minutes != 0 then apt.planned_minutes else 90
      | none => 90
    else 90
  | none => 90

/-- The acceptance filter at the top of `upsert_tasks_from_bookings`
(lines 47–76 of `src/app/sync.py`). -/
def acceptB (b : Booking) : Bool :=
  if blankStr b.departure then false
  else if b.departure.length != 10 || hyphenCount b.departure != 2 then false
  else if blankStr b.arrival then false
  else if strLeB b.departure b.arrival then false
  else if strLtB b.departure "2020-01-01" then false
  else true

/-- Truncation `(s or "")[:n] if s else None` used for the next-arrival
comment and guest-name caches. -/
def truncOpt (s : Option String) (n : Nat) : Option String :=
  match s with
  | some v => if v == "" then none else some (takeStr v n)
  | none => none

/-- The field assignments applied to an existing task in the upsert loop
(lines 93–101 of `src/app/sync.py`). -/
def updateTask (b : Booking) (ni : NextInfo) (t : Task) : Task :=
  { t with
    date := b.departure
    apartment_id := b.apartment_id
    booking_hash := some (computeBookingHash b)
    auto_generated := true
    next_arrival := ni.arrival
    next_arrival_adults := ni.adults
    next_arrival_children := ni.children
    next_arrival_comments := truncOpt ni.comments 2000
    next_arrival_guest_name := truncOpt ni.guest_name 255 }

/-- The `Task(...)` constructed for a booking with no existing task
(lines 103–114 of `src/app/sync.py`); unset columns take their model
defaults. -/
def newTask (b : Booking) (ni : NextInfo) (pm : Int) : Task :=
  { id := 0
    date := b.departure
    start_time := ""
    planned_minutes := pm
    notes := some ""
    extras_json := "{}"
    apartment_id := b.apartment_id
    booking_id := some b.id
    assigned_staff_id := none
    assignment_status := none
    status := "open"
    assign_notified_at := none
    auto_generated := true
    booking_hash := some (computeBookingHash b)
    next_arrival := ni.arrival
    next_arrival_adults := ni.adults
    next_arrival_children := ni.children
    next_arrival_comments := truncOpt ni.comments 2000
    next_arrival_guest_name := truncOpt ni.guest_name 255
    series_id := none
    is_recurring := false }

/-- Replace the element at index `i` by `f` of it (in-place ORM mutation of
one loaded row). -/
def modifyIdx (f : α → α) : Nat → List α → List α
  | _, [] => []
  | 0, a :: as => f a :: as
  | n + 1, a :: as => a :: modifyIdx f n as

/-- The index of the task `existing_by_booking[bid]` designates: the dict
comprehension `{t.booking_id: t for t in existing}` keeps the last row with
that booking id. -/
def lastIdxWith (ts : List Task) (bid : Int) : Option Nat :=
  match ts with
  | [] => none
  | t :: rest =>
    match lastIdxWith rest bid with
    | some j => some (j + 1)
    | none => if t.booking_id == some bid then some 0 else none

/-- One iteration of the `for b in clean` upsert loop: mutate the designated
existing row, or stage a new row for insertion. -/
def upsertStep (ts0 : List Task) (nmap : Int → NextInfo) (apartments : List Apartment)
    (acc : List Task × List Task) (b : Booking) : List Task × List Task :=
  match lastIdxWith ts0 b.id with
  | some j => (modifyIdx (updateTask b (nmap b.id)) j acc.1, acc.2)
  | none =>
    (acc.1, acc.2 ++ [newTask b (nmap b.id) (getPlannedMinutesFor apartments b.apartment_id)])

/-- First cleanup pass (lines 119–156 of `src/app/sync.py`): delete tasks
with blank/malformed/too-old dates, and tasks whose referenced booking row
exists but has a blank or malformed departure.  `if t.booking_id:` is
Python truthiness: a `booking_id` of `NULL` or `0` skips the booking
check. -/
def delete1 (table : List Booking) (t : Task) : Bool :=
  if blankStr t.date then true
  else if t.date.length != 10 || hyphenCount t.date != 2 then true
  else if strLtB t.date "2020-01-01" then true
  else
    match t.booking_id with
    | some bid =>
      if bid == 0 then false
      else
      match table.find? (fun b => b.id == bid) with
      | some b =>
        if blankStr b.departure then true
        else if b.departure.length != 10 || hyphenCount b.departure != 2 then true
        else false
      | none => false
    | none => false

/-- Second cleanup pass (lines 158–196 of `src/app/sync.py`): only
auto-generated tasks are examined; a booking-linked one is deleted when its
booking id left the accepted set or its booking row is missing or invalid.
`if t.booking_id:` is Python truthiness: with a `booking_id` of `NULL` or
`0` the task falls into the keep branches (`should_delete` stays false), so
it is never deleted by this pass. -/
def delete2 (table : List Booking) (ids : List Int) (t : Task) : Bool :=
  if t.auto_generated then
    match t.booking_id with
    | some bid =>
      if bid == 0 then false
      else if !(ids.contains bid) then true
      else
        match table.find? (fun b => b.id == bid) with
        | none => true
        | some b =>
          if blankStr b.departure then true
          else if blankStr b.arrival then true
          else if b.departure.length != 10 || hyphenCount b.departure != 2 then true
          else strLeB b.departure b.arrival
    | none => false
  else false

/-- `upsert_tasks_from_bookings` of `src/app/sync.py`.  The cleanup queries
run with `autoflush=False`, so they see the mutated existing rows but not the
rows staged with `session.add`; those are appended at commit. -/
def upsertTasksFromBookings (input : List Booking) (st : DBState) : DBState :=
  if input.isEmpty then st
  else
    let clean := input.filter acceptB
    let ids := clean.map (·.id)
    let nmap := nextMapGet clean
    let res := clean.foldl (upsertStep st.tasks nmap st.apartments) (st.tasks, [])
    let cleaned :=
      ((res.1.filter (fun t => !delete1 st.bookings t)).filter
        (fun t => !delete2 st.bookings ids t))
    { st with tasks := cleaned ++ res.2 }

/-! ## `src/app/jobs.py`: `_expand_series_occurrences` -/

/-- `max(1, int(series.interval or 1))`. -/
def effInterval (s : TaskSeries) : Nat :=
  let base : Int := match s.interval with
    | some v => if v == 0 then 1 else v
    | none => 1
  (max 1 base).toNat

/-- The two-letter weekday map `{"mo":0, ..., "su":6}`. -/
def wdMapLookup (p : String) : Option Nat :=
  if p == "mo" then some 0
  else if p == "tu" then some 1
  else if p == "we" then some 2
  else if p == "th" then some 3
  else if p == "fr" then some 4
  else if p == "sa" then some 5
  else if p == "su" then some 6
  else none

/-- The weekly weekday set: parsed from `series.byweekday` when truthy and
non-garbage, else the start date's own weekday. -/
def effWeekdays (s : TaskSeries) (s0 : Date) : List Nat :=
  if s.byweekday != "" then
    let wds := (splitOnCh ',' s.byweekday).filterMap
      (fun p => wdMapLookup (takeStr (toLowerStr (trimStr p)) 2))
    if wds.isEmpty then [weekdayOf s0] else wds
  else [weekdayOf s0]

/-- The monthly day-of-month set: parsed from `series.bymonthday` when truthy
and non-garbage, else the start date's own day. -/
def effMonthdays (s : TaskSeries) (s0 : Date) : List Nat :=
  if s.bymonthday != "" then
    let l := (splitOnCh ',' s.bymonthday).filterMap (fun p =>
      match pyInt? (trimStr p) with
      | some v => if 1 ≤ v && v ≤ 31 then some v.toNat else none
      | none => none)
    if l.isEmpty then [s0.d] else l
  else [s0.d]

/-- `if series.count and gen >= series.count` (Python truthiness: a `count`
of `None` or `0` never caps). -/
def countReached (cnt : Option Int) (n : Nat) : Bool :=
  match cnt with
  | some c => c != 0 && c ≤ (n : Int)
  | none => false

/-- The per-date test of the weekly branch: week index since the Monday of
the start date's week is a multiple of the interval, the weekday is in the
set, and `d >= s0`.  Inside the loop `d ≥ s0 ≥` that Monday, so the natural
subtraction equals Python's integer subtraction. -/
def weeklyCond (s0 : Date) (wds : List Nat) (interval : Nat) (d : Date) : Bool :=
  let swm := toordinal s0 - weekdayOf s0
  ((toordinal d - swm) / 7) % interval == 0 && wds.contains (weekdayOf d) && dateLeB s0 d

/-- The weekly `for d in _daterange_iter(...)` loop body with its
`break` once `len(out) >= series.count`. -/
def weeklyLoop (cond : Date → Bool) (cnt : Option Int) : List Date → Nat → List Date
  | [], _ => []
  | d :: ds, sofar =>
    if cond d then
      if countReached cnt (sofar + 1) then [d]
      else d :: weeklyLoop cond cnt ds (sofar + 1)
    else weeklyLoop cond cnt ds sofar

/-- `while cur < start_from: cur = _add_months(cur, interval)`.  The fuel
passed by `expandSeriesOccurrences` exceeds the month distance, so it never
runs out before the loop condition fails. -/
def monthlyAdvance : Nat → Date → Date → Nat → Date
  | 0, cur, _, _ => cur
  | fuel + 1, cur, startFrom, k =>
    if dateLtB cur startFrom then monthlyAdvance fuel (addMonths cur k) startFrom k else cur

/-- The inner `for md in mdays` loop of the monthly branch; returns the
emitted dates, the updated `gen` counter, and whether the
`return out` for a reached count fired. -/
def monthlyEmit (cnt : Option Int) (s0 startFrom hardUntil cur : Date) :
    List Nat → Nat → List Date × Nat × Bool
  | [], gen => ([], gen, false)
  | md :: rest, gen =>
    if dateLtB ⟨cur.y, cur.m, min md (daysInMonth cur.y cur.m)⟩ s0 ||
        dateLtB ⟨cur.y, cur.m, min md (daysInMonth cur.y cur.m)⟩ startFrom ||
        dateLtB hardUntil ⟨cur.y, cur.m, min md (daysInMonth cur.y cur.m)⟩ then
      monthlyEmit cnt s0 startFrom hardUntil cur rest gen
    else if countReached cnt (gen + 1) then
      ([⟨cur.y, cur.m, min md (daysInMonth cur.y cur.m)⟩], gen + 1, true)
    else
      (⟨cur.y, cur.m, min md (daysInMonth cur.y cur.m)⟩ ::
          (monthlyEmit cnt s0 startFrom hardUntil cur rest (gen + 1)).1,
        (monthlyEmit cnt s0 startFrom hardUntil cur rest (gen + 1)).2.1,
        (monthlyEmit cnt s0 startFrom hardUntil cur rest (gen + 1)).2.2)

/-- `while cur <= hard_until` of the monthly branch. -/
def monthlyLoop (cnt : Option Int) (s0 startFrom hardUntil : Date) (mdays : List Nat)
    (k : Nat) : Nat → Date → Nat → List Date
  | 0, _, _ => []
  | fuel + 1, cur, gen =>
    if dateLeB cur hardUntil then
      if (monthlyEmit cnt s0 startFrom hardUntil cur mdays gen).2.2 then
        (monthlyEmit cnt s0 startFrom hardUntil cur mdays gen).1
      else
        (monthlyEmit cnt s0 startFrom hardUntil cur mdays gen).1 ++
          monthlyLoop cnt s0 startFrom hardUntil mdays k fuel (addMonths cur k)
            (monthlyEmit cnt s0 startFrom hardUntil cur mdays gen).2.1
    else []

/-- `_date(y, m, d)`: raises `ValueError` (modelled as `none`) outside the
calendar. -/
def mkDateChecked (y m d : Nat) : Option Date :=
  if (⟨y, m, d⟩ : Date).Valid then some ⟨y, m, d⟩ else none

/-- `while cur < start_from: cur = _date(cur.year + interval, ...)` of the
yearly branch; `none` models the `ValueError` escaping the job. -/
def yearlyAdvance : Nat → Date → Date → Nat → Option Date
  | 0, cur, _, _ => some cur
  | fuel + 1, cur, startFrom, k =>
    if dateLtB cur startFrom then
      match mkDateChecked (cur.y + k) cur.m cur.d with
      | some nxt => yearlyAdvance fuel nxt startFrom k
      | none => none
    else some cur

/-- `while cur <= hard_until` of the yearly branch. -/
def yearlyLoop (cnt : Option Int) (s0 startFrom hardUntil : Date) (k : Nat) :
    Nat → Date → Nat → Option (List Date)
  | 0, _, _ => some []
  | fuel + 1, cur, gen =>
    if dateLeB cur hardUntil then
      if dateLeB s0 cur && dateLeB startFrom cur then
        if countReached cnt (gen + 1) then some [cur]
        else
          match mkDateChecked (cur.y + k) cur.m cur.d with
          | some nxt =>
            match yearlyLoop cnt s0 startFrom hardUntil k fuel nxt (gen + 1) with
            | some rest => some (cur :: rest)
            | none => none
          | none => none
      else
        match mkDateChecked (cur.y + k) cur.m cur.d with
        | some nxt => yearlyLoop cnt s0 startFrom hardUntil k fuel nxt gen
        | none => none
    else some []

/-- `end_limit = _parse_date(series.end_date) if series.end_date else None`. -/
def seriesEndLimit (s : TaskSeries) : Option Date :=
  match s.end_date with
  | some e => if e != "" then parseDate e else none
  | none => none

/-- `hard_until = min(until, end_limit) if end_limit else until`. -/
def hardUntilOf (s : TaskSeries) (untl : Date) : Date :=
  match seriesEndLimit s with
  | some el => minDate untl el
  | none => untl

/-- `_expand_series_occurrences` of `src/app/jobs.py`.  `none` models the
`ValueError` the yearly branch can raise on a Feb-29 start date; all other
branches always return a list. -/
def expandSeriesOccurrences (series : TaskSeries) (startFrom untl : Date) :
    Option (List Date) :=
  if !series.active then some []
  else
    match parseDate series.start_date with
    | none => some []
    | some s0 =>
      let hu := hardUntilOf series untl
      if dateLtB hu startFrom then some []
      else
        let freq := toLowerStr series.frequency
        let k := effInterval series
        if freq == "weekly" then
          some (weeklyLoop (weeklyCond s0 (effWeekdays series s0) k) series.count
            (daterange (maxDate startFrom s0) hu) 0)
        else if freq == "monthly" then
          let cur := monthlyAdvance (monthIndex startFrom + 1) s0 startFrom k
          some (monthlyLoop series.count s0 startFrom hu (effMonthdays series s0) k
            (monthIndex hu + 1) cur 0)
        else if freq == "yearly" then
          match yearlyAdvance (startFrom.y + 1) s0 startFrom k with
          | some cur => yearlyLoop series.count s0 startFrom hu k (hu.y + 1) cur 0
          | none => none
        else some (if dateLeB startFrom s0 && dateLeB s0 hu then [s0] else [])

/-! ## `src/app/jobs.py`: `expand_series_job` -/

/-- `db.query(Task).filter(series_id==sid).order_by(date.desc()).first()`,
projected to the only field the job reads: the maximal date string. -/
def seriesLastDate (ts : List Task) (sid : Int) : Option String :=
  maxStr? ((ts.filter (fun t => t.series_id == some sid)).map (·.date))

/-- `start_from = _parse_date(last.date) + timedelta(days=1) if last else
_parse_date(ser.start_date) or date.today()`; `none` models the `TypeError`
when an existing series task has an unparseable date. -/
def seriesStartFrom (ts : List Task) (ser : TaskSeries) (today : Date) : Option Date :=
  match seriesLastDate ts ser.id with
  | some ld =>
    match parseDate ld with
    | some x => some (nextDate x)
    | none => none
  | none => some ((parseDate ser.start_date).getD today)

/-- The `Task(...)` created for one series occurrence
(lines 632–643 of `src/app/jobs.py`); unset columns take their defaults. -/
def mkSeriesTask (ser : TaskSeries) (d : Date) : Task :=
  { id := 0
    date := isoformat d
    start_time := ""
    planned_minutes := match ser.planned_minutes with
      | some v => if v != 0 then v else 60
      | none => 60
    notes := if ser.description != "" then some ser.description else none
    extras_json := "{}"
    apartment_id := ser.apartment_id
    booking_id := none
    assigned_staff_id := ser.staff_id
    assignment_status := match ser.staff_id with
      | some sid => if sid != 0 then some "pending" else none
      | none => none
    status := "open"
    assign_notified_at := none
    auto_generated := false
    booking_hash := none
    next_arrival := none
    next_arrival_adults := none
    next_arrival_children := none
    next_arrival_comments := none
    next_arrival_guest_name := none
    series_id := some ser.id
    is_recurring := true }

/-- The occurrence dates of one series that survive the
`exists`-check-before-insert; with `autoflush=False` that query sees only
the committed `ts`, never rows staged earlier in the same call. -/
def seriesNewTasks (ts : List Task) (ser : TaskSeries) (occ : List Date) : List Task :=
  (occ.filter (fun d =>
    !(ts.any (fun t => t.series_id == some ser.id && t.date == isoformat d)))).map
    (mkSeriesTask ser)

/-- The new rows staged by one `expand_series_job` call, series by series in
table order; a raised date error anywhere discards the whole call. -/
def expandSeriesNewTasks (ts : List Task) (today horizon : Date) :
    List TaskSeries → Option (List Task)
  | [] => some []
  | ser :: rest =>
    match seriesStartFrom ts ser today with
    | none => none
    | some sf =>
      match expandSeriesOccurrences ser sf horizon with
      | none => none
      | some occ =>
        match expandSeriesNewTasks ts today horizon rest with
        | some more => some (seriesNewTasks ts ser occ ++ more)
        | none => none

/-- `expand_series_job` of `src/app/jobs.py` (the notification dispatch it
triggers on a positive count is outside the task store and not modelled). -/
def expandSeriesJob (st : DBState) (today : Date) (daysAhead : Nat) : Option DBState :=
  match expandSeriesNewTasks st.tasks today (addDays today daysAhead)
      (st.series.filter (·.active)) with
  | some news => some { st with tasks := st.tasks ++ news }
  | none => none

/-! ## `src/app/jobs.py`: `refresh_bookings_job` -/

/-- One raw reservation record as consumed by `refresh_bookings_job`.
`blockedFlag` is the disjunction `isBlockedBooking or blocked` of the two
raw keys; `guestName` is the output of the guest-name resolution chain,
which never influences acceptance. -/
structure RawItem where
  id : Int
  apartmentId : Option Int
  apartmentName : String
  arrival : String
  departure : String
  typ : String
  status : String
  cancelledFlag : Bool
  blockedFlag : Bool
  internalFlag : Bool
  adults : Option Int
  children : Option Int
  guestComments : String
  guestName : String
deriving DecidableEq, Repr

/-- The `should_skip` decision of `refresh_bookings_job`
(lines 466–511 of `src/app/jobs.py`). -/
def rawShouldSkip (it : RawItem) : Bool :=
  let status := if it.status == "" then "" else toLowerStr it.status
  let cancelled := status == "cancelled" || it.cancelledFlag
  let bookingType := toLowerStr it.typ
  let arrival := takeStr it.arrival 10
  let departure := takeStr it.departure 10
  let flagSkip :=
    bookingType == "cancellation" || cancelled || it.blockedFlag || it.internalFlag ||
    status == "draft" || status == "pending" || status == "on hold" || status == "on_hold"
  let dateSkip :=
    if blankStr departure then true
    else if blankStr arrival then true
    else strLeB departure arrival
  flagSkip || dateSkip

/-- Processing of one raw record by `refresh_bookings_job`: on skip, delete
any cached booking with that id and every task referencing it (the
cancellation e-mails sent on that path do not touch the store); otherwise
upsert the booking row keyed by its primary key. -/
def refreshStep (st : DBState) (it : RawItem) : DBState :=
  if rawShouldSkip it then
    { st with
      bookings := st.bookings.filter (fun b => b.id != it.id)
      tasks := st.tasks.filter (fun t => t.booking_id != some it.id) }
  else if st.bookings.any (fun b => b.id == it.id) then
    { st with bookings := st.bookings.map (fun b =>
        if b.id == it.id then
          { b with
            apartment_id := it.apartmentId
            apartment_name := it.apartmentName
            arrival := takeStr it.arrival 10
            departure := takeStr it.departure 10
            guest_name := it.guestName
            adults := it.adults
            children := it.children
            guest_comments := takeStr it.guestComments 2000 }
        else b) }
  else
    { st with bookings := st.bookings ++ [{
        id := it.id
        apartment_id := it.apartmentId
        apartment_name := it.apartmentName
        arrival := takeStr it.arrival 10
        departure := takeStr it.departure 10
        nights := 0
        adults := it.adults
        children := it.children
        guest_comments := takeStr it.guestComments 2000
        guest_name := it.guestName }] }

/-- `refresh_bookings_job` of `src/app/jobs.py`: process every fetched
record, then reconcile tasks from the full booking table, then drop tasks
with a blank date. -/
def refreshBookingsJob (items : List RawItem) (st : DBState) : DBState :=
  let st1 := items.foldl refreshStep st
  let st2 := upsertTasksFromBookings st1.bookings st1
  { st2 with tasks := st2.tasks.filter (fun t => !blankStr t.date) }

/-! ## Concrete instances used by the example-level theorems -/

/-- An accepted booking: apartment 7, arrival 2024-01-01, departure 2024-01-05. -/
def exBooking1 : Booking :=
  ⟨1, some 7, "X", "2024-01-01", "2024-01-05", 0, some 2, some 0, "", "g1"⟩

/-- A second accepted booking in the same apartment, arriving on the first
one's departure day. -/
def exBooking2 : Booking :=
  ⟨2, some 7, "X", "2024-01-05", "2024-01-10", 0, some 3, some 1, "c", "g2"⟩

/-- A task that references booking id 5 but is not auto-generated. -/
def exTaskManualRef : Task :=
  ⟨10, "2024-06-01", "", 90, some "", "{}", none, some 5, none, none, "open",
    none, false, none, none, none, none, none, none, none, false⟩

/-- An auto-generated task referencing booking id 5. -/
def exTaskAutoRef : Task :=
  ⟨12, "2024-06-01", "", 90, some "", "{}", none, some 5, none, none, "open",
    none, true, none, none, none, none, none, none, none, false⟩

/-- An auto-generated task whose `booking_id` is `0`: falsy in Python, so
the stale-deletion pass never examines it. -/
def exTaskAutoZero : Task :=
  ⟨14, "2024-06-01", "", 90, some "", "{}", none, some 0, none, none, "open",
    none, true, none, none, none, none, none, none, none, false⟩

/-- An existing booking-derived task for `exBooking1` with human-edited
fields: planned_minutes 120, an assignee, notes, and status "done". -/
def exTaskDone : Task :=
  ⟨11, "2024-01-05", "", 120, some "n", "{}", some 7, some 1, some 3,
    some "accepted", "done", none, true, none, none, none, none, none, none,
    none, false⟩

/-- A manual task (no booking, no series) with a malformed date. -/
def exTaskBadDate : Task :=
  ⟨13, "garbage", "", 60, some "", "{}", none, none, none, none, "open",
    none, false, none, none, none, none, none, none, none, false⟩

/-- State for the C2 counterexample: one non-auto task referencing a booking
id absent from the accepted set. -/
def exStateC2 : DBState :=
  ⟨[exTaskManualRef], [exBooking1], [], []⟩

/-- State for the C4/C5 witnesses. -/
def exStateDone : DBState :=
  ⟨[exTaskDone], [exBooking1, exBooking2], [], []⟩

/-- State for the C10 witness: a manual task with a malformed date. -/
def exStateBadDate : DBState :=
  ⟨[exTaskBadDate], [exBooking1], [], []⟩

/-- A raw reservation record with non-empty but malformed dates
(`arrival="abc"`, `departure="abd"`), no cancellation flags. -/
def exRawBad : RawItem :=
  ⟨9, none, "A", "abc", "abd", "", "", false, false, false, none, none, "", ""⟩

/-- The weekly example series of the spec: start 2024-01-01 (a Monday),
interval 1, no weekday set, no count. -/
def exSeriesWeekly : TaskSeries :=
  ⟨1, "t", "", none, none, some 60, "2024-01-01", "", "weekly", none, "", "",
    none, none, true⟩

/-- The weekly series with `count = 3` used against the count-cap claim. -/
def exSeriesCapped : TaskSeries :=
  ⟨1, "t", "", none, none, some 60, "2024-01-01", "", "weekly", none, "", "",
    none, some 3, true⟩

/-- The monthly example series of the spec: start 2024-01-31, `bymonthday`
unset. -/
def exSeriesMonthly : TaskSeries :=
  ⟨2, "t", "", none, none, some 60, "2024-01-31", "", "monthly", none, "", "",
    none, none, true⟩

/-- A monthly series with `bymonthday = "30,31"`: both days clamp to the
same date in February. -/
def exSeriesMonthdays : TaskSeries :=
  ⟨1, "t", "", none, none, some 60, "2024-01-30", "", "monthly", none, "",
    "30,31", none, none, true⟩

/-- State holding only the capped weekly series. -/
def exStateCapped : DBState :=
  ⟨[], [], [], [exSeriesCapped]⟩

/-- State holding only the `bymonthday = "30,31"` series. -/
def exStateMonthdays : DBState :=
  ⟨[], [], [], [exSeriesMonthdays]⟩

/-! ## List surgery lemmas -/

theorem length_modifyIdx (f : α → α) :
    ∀ (j : Nat) (l : List α), (modifyIdx f j l).length = l.length
  | _, [] => by simp [modifyIdx]
  | 0, _ :: _ => rfl
  | n + 1, a :: as => by
    simp only [modifyIdx, List.length_cons, length_modifyIdx f n as]

theorem get?_modifyIdx_self (f : α → α) :
    ∀ (j : Nat) (l : List α), (modifyIdx f j l).get? j = (l.get? j).map f
  | _, [] => by simp [modifyIdx]
  | 0, _ :: _ => rfl
  | n + 1, a :: as => by
    simpa only [modifyIdx, List.get?_cons_succ] using get?_modifyIdx_self f n as

theorem get?_modifyIdx_ne (f : α → α) :
    ∀ (j i : Nat) (l : List α), i ≠ j → (modifyIdx f j l).get? i = l.get? i
  | _, _, [], _ => by simp [modifyIdx]
  | 0, 0, _ :: _, h => absurd rfl h
  | 0, i + 1, _ :: _, _ => rfl
  | j + 1, 0, _ :: _, _ => rfl
  | j + 1, i + 1, a :: as, h => by
    simpa only [modifyIdx, List.get?_cons_succ] using
      get?_modifyIdx_ne f j i as (fun hc => h (by omega))

theorem modifyIdx_eq_self (f : α → α) :
    ∀ (j : Nat) (l : List α) (a : α), l.get? j = some a → f a = a → modifyIdx f j l = l
  | _, [], _, h, _ => by simp at h
  | 0, x :: xs, a, h, hf => by
    simp only [List.get?_cons_zero, Option.some.injEq] at h
    simp [modifyIdx, h ▸ hf]
  | n + 1, x :: xs, a, h, hf => by
    simp only [List.get?_cons_succ] at h
    simp [modifyIdx, modifyIdx_eq_self f n xs a h hf]

theorem mem_modifyIdx (f : α → α) :
    ∀ (j : Nat) (l : List α) (x : α), x ∈ modifyIdx f j l →
      x ∈ l ∨ ∃ a, l.get? j = some a ∧ x = f a
  | _, [], _, h => by simp [modifyIdx] at h
  | 0, y :: ys, x, h => by
    rcases List.mem_cons.mp h with h | h
    · exact Or.inr ⟨y, rfl, h⟩
    · exact Or.inl (List.mem_cons_of_mem _ h)
  | n + 1, y :: ys, x, h => by
    rcases List.mem_cons.mp h with h | h
    · exact Or.inl (h ▸ List.mem_cons_self _ _)
    · rcases mem_modifyIdx f n ys x h with h' | ⟨a, ha, hx⟩
      · exact Or.inl (List.mem_cons_of_mem _ h')
      · exact Or.inr ⟨a, ha, hx⟩

/-! ## `lastIdxWith` lemmas -/

theorem lastIdxWith_get? :
    ∀ (ts : List Task) (bid : Int) (j : Nat), lastIdxWith ts bid = some j →
      ∃ t, ts.get? j = some t ∧ t.booking_id = some bid
  | [], _, _, h => by simp [lastIdxWith] at h
  | t :: rest, bid, j, h => by
    rw [lastIdxWith] at h
    cases hr : lastIdxWith rest bid with
    | some j' =>
      rw [hr] at h
      obtain ⟨u, hu, hub⟩ := lastIdxWith_get? rest bid j' hr
      cases h
      exact ⟨u, by simpa using hu, hub⟩
    | none =>
      rw [hr] at h
      by_cases hb : t.booking_id == some bid
      · simp [hb] at h
        exact ⟨t, by simp [← h], by simpa using hb⟩
      · simp [hb] at h

theorem lastIdxWith_eq_none :
    ∀ (ts : List Task) (bid : Int), lastIdxWith ts bid = none ↔
      ∀ t ∈ ts, t.booking_id ≠ some bid
  | [], bid => by simp [lastIdxWith]
  | t :: rest, bid => by
    rw [lastIdxWith]
    cases hr : lastIdxWith rest bid with
    | some j' =>
      simp only [reduceCtorEq, false_iff]
      intro hall
      have := (lastIdxWith_eq_none rest bid).mpr (fun u hu => hall u (List.mem_cons_of_mem _ hu))
      rw [this] at hr; cases hr
    | none =>
      by_cases hb : t.booking_id = some bid
      · simp only [hb, beq_self_eq_true, if_true, reduceCtorEq, false_iff]
        intro hall
        exact hall t (List.mem_cons_self _ _) hb
      · rw [if_neg (by simpa using hb)]
        simp only [true_iff]
        intro u hu
        rcases List.mem_cons.mp hu with rfl | hu'
        · exact hb
        · exact (lastIdxWith_eq_none rest bid).mp hr u hu'

theorem lastIdxWith_isSome_of_mem (ts : List Task) (bid : Int) (t : Task)
    (ht : t ∈ ts) (hb : t.booking_id = some bid) : ∃ j, lastIdxWith ts bid = some j := by
  cases hL : lastIdxWith ts bid with
  | some j => exact ⟨j, rfl⟩
  | none => exact absurd hb ((lastIdxWith_eq_none ts bid).mp hL t ht)

theorem lastIdxWith_maximal :
    ∀ (ts : List Task) (bid : Int) (j : Nat), lastIdxWith ts bid = some j →
      ∀ (i : Nat) (t' : Task), ts.get? i = some t' → t'.booking_id = some bid → i ≤ j
  | [], _, _, h => by simp [lastIdxWith] at h
  | t :: rest, bid, j, h => by
    intro i t' hi hb'
    rw [lastIdxWith] at h
    cases hr : lastIdxWith rest bid with
    | some j' =>
      rw [hr] at h
      cases h
      cases i with
      | zero => omega
      | succ i' =>
        simp only [List.get?_cons_succ] at hi
        have := lastIdxWith_maximal rest bid j' hr i' t' hi hb'
        omega
    | none =>
      rw [hr] at h
      cases i with
      | zero => omega
      | succ i' =>
        simp only [List.get?_cons_succ] at hi
        have : t' ∈ rest := List.get?_mem hi
        exact absurd hb' ((lastIdxWith_eq_none rest bid).mp hr t' this)

/-! ## Characterization of the upsert loop of `upsert_tasks_from_bookings` -/

theorem lastIdxWith_inj (ts : List Task) (bid1 bid2 : Int) (j : Nat)
    (h1 : lastIdxWith ts bid1 = some j) (h2 : lastIdxWith ts bid2 = some j) :
    bid1 = bid2 := by
  obtain ⟨t1, hg1, hb1⟩ := lastIdxWith_get? ts bid1 j h1
  obtain ⟨t2, hg2, hb2⟩ := lastIdxWith_get? ts bid2 j h2
  rw [hg1] at hg2
  cases hg2
  rw [hb1] at hb2
  exact (Option.some.injEq _ _).mp hb2

theorem foldl_news_eq (ts0 : List Task) (nmap : Int → NextInfo) (apts : List Apartment) :
    ∀ (cs : List Booking) (acc : List Task × List Task),
      (cs.foldl (upsertStep ts0 nmap apts) acc).2 =
        acc.2 ++ (cs.filter (fun b => (lastIdxWith ts0 b.id).isNone)).map
          (fun b => newTask b (nmap b.id) (getPlannedMinutesFor apts b.apartment_id))
  | [], acc => by simp
  | c :: cs, acc => by
    rw [List.foldl_cons, foldl_news_eq ts0 nmap apts cs]
    unfold upsertStep
    cases hL : lastIdxWith ts0 c.id with
    | some j => simp [hL, List.filter_cons]
    | none => simp [hL, List.filter_cons]

theorem foldl_fst_untouched (ts0 : List Task) (nmap : Int → NextInfo) (apts : List Apartment) :
    ∀ (cs : List Booking) (acc : List Task × List Task) (j : Nat),
      (∀ b ∈ cs, lastIdxWith ts0 b.id ≠ some j) →
      ((cs.foldl (upsertStep ts0 nmap apts) acc).1).get? j = acc.1.get? j
  | [], _, _, _ => rfl
  | c :: cs, acc, j, h => by
    rw [List.foldl_cons]
    rw [foldl_fst_untouched ts0 nmap apts cs _ j
      (fun b hb => h b (List.mem_cons_of_mem _ hb))]
    unfold upsertStep
    cases hL : lastIdxWith ts0 c.id with
    | some j' =>
      have hne : j ≠ j' := fun hc => h c (List.mem_cons_self _ _) (hc ▸ hL)
      simp only [get?_modifyIdx_ne _ j' j _ hne]
    | none => rfl

theorem foldl_fst_designated (ts0 : List Task) (nmap : Int → NextInfo) (apts : List Apartment) :
    ∀ (cs : List Booking) (acc : List Task × List Task) (j : Nat) (b : Booking),
      (cs.map (·.id)).Nodup → b ∈ cs → lastIdxWith ts0 b.id = some j →
      ((cs.foldl (upsertStep ts0 nmap apts) acc).1).get? j =
        (acc.1.get? j).map (updateTask b (nmap b.id))
  | [], _, _, _, _, hb, _ => absurd hb (List.not_mem_nil _)
  | c :: cs, acc, j, b, hN, hb, hj => by
    rw [List.map_cons, List.nodup_cons] at hN
    rw [List.foldl_cons]
    rcases List.mem_cons.mp hb with rfl | hb'
    · have hrest : ∀ b' ∈ cs, lastIdxWith ts0 b'.id ≠ some j := by
        intro b' hb' hc
        have : b'.id = b.id := lastIdxWith_inj ts0 b'.id b.id j hc hj
        exact hN.1 (this ▸ List.mem_map_of_mem (·.id) hb')
      rw [foldl_fst_untouched ts0 nmap apts cs _ j hrest]
      unfold upsertStep
      rw [hj]
      exact get?_modifyIdx_self _ j acc.1
    · have hne : c.id ≠ b.id := by
        intro hc
        exact hN.1 (hc ▸ List.mem_map_of_mem (·.id) hb')
      have hstep : ((upsertStep ts0 nmap apts acc c).1).get? j = acc.1.get? j := by
        unfold upsertStep
        cases hL : lastIdxWith ts0 c.id with
        | some j' =>
          have : j ≠ j' := by
            intro hc
            exact hne (lastIdxWith_inj ts0 c.id b.id j' hL (hc ▸ hj))
          simp only [get?_modifyIdx_ne _ j' j _ this]
        | none => rfl
      rw [foldl_fst_designated ts0 nmap apts cs _ j b hN.2 hb' hj, hstep]

theorem foldl_fst_length (ts0 : List Task) (nmap : Int → NextInfo) (apts : List Apartment) :
    ∀ (cs : List Booking) (acc : List Task × List Task),
      ((cs.foldl (upsertStep ts0 nmap apts) acc).1).length = acc.1.length
  | [], _ => rfl
  | c :: cs, acc => by
    rw [List.foldl_cons, foldl_fst_length ts0 nmap apts cs]
    unfold upsertStep
    cases hL : lastIdxWith ts0 c.id with
    | some j => simp [hL, length_modifyIdx]
    | none => rfl

theorem mem_foldl_fst (ts0 : List Task) (nmap : Int → NextInfo) (apts : List Apartment) :
    ∀ (cs : List Booking) (acc : List Task × List Task) (x : Task),
      x ∈ (cs.foldl (upsertStep ts0 nmap apts) acc).1 →
      x ∈ acc.1 ∨ ∃ b a, b ∈ cs ∧ x = updateTask b (nmap b.id) a
  | [], _, _, h => Or.inl h
  | c :: cs, acc, x, h => by
    rw [List.foldl_cons] at h
    rcases mem_foldl_fst ts0 nmap apts cs _ x h with h' | ⟨b, a, hb, hx⟩
    · unfold upsertStep at h'
      cases hL : lastIdxWith ts0 c.id with
      | some j =>
        rw [hL] at h'
        rcases mem_modifyIdx _ j acc.1 x h' with h'' | ⟨a, ha, hx⟩
        · exact Or.inl h''
        · exact Or.inr ⟨c, a, List.mem_cons_self _ _, hx⟩
      | none =>
        rw [hL] at h'
        exact Or.inl h'
    · exact Or.inr ⟨b, a, List.mem_cons_of_mem _ hb, hx⟩

/-! ## Unfolding `upsert_tasks_from_bookings` -/

theorem upsert_tasks_eq (input : List Booking) (st : DBState) (h0 : input ≠ []) :
    (upsertTasksFromBookings input st).tasks =
      ((((input.filter acceptB).foldl
            (upsertStep st.tasks (nextMapGet (input.filter acceptB)) st.apartments)
            (st.tasks, [])).1.filter (fun t => !delete1 st.bookings t)).filter
          (fun t => !delete2 st.bookings ((input.filter acceptB).map (·.id)) t)) ++
      ((input.filter acceptB).foldl
        (upsertStep st.tasks (nextMapGet (input.filter acceptB)) st.apartments)
        (st.tasks, [])).2 := by
  unfold upsertTasksFromBookings
  rw [if_neg (by simpa [List.isEmpty_iff] using h0)]

theorem upsert_bookings_eq (input : List Booking) (st : DBState) :
    (upsertTasksFromBookings input st).bookings = st.bookings := by
  unfold upsertTasksFromBookings
  split <;> rfl

theorem upsert_apartments_eq (input : List Booking) (st : DBState) :
    (upsertTasksFromBookings input st).apartments = st.apartments := by
  unfold upsertTasksFromBookings
  split <;> rfl

theorem upsert_series_eq (input : List Booking) (st : DBState) :
    (upsertTasksFromBookings input st).series = st.series := by
  unfold upsertTasksFromBookings
  split <;> rfl

/-! ## Properties of the acceptance and cleanup predicates -/

theorem acceptB_props (b : Booking) (h : acceptB b = true) :
    b.departure.length = 10 ∧ hyphenCount b.departure = 2 ∧
      strLtB b.departure "2020-01-01" = false ∧ strLeB b.departure b.arrival = false ∧
      blankStr b.departure = false ∧ blankStr b.arrival = false := by
  unfold acceptB at h
  split_ifs at h with h1 h2 h3 h4 h5
  simp only [Bool.or_eq_true, bne_iff_ne, ne_eq, not_or, not_not] at h2
  exact ⟨h2.1, h2.2, Bool.not_eq_true _ ▸ h5, Bool.not_eq_true _ ▸ h4,
    Bool.not_eq_true _ ▸ h1, Bool.not_eq_true _ ▸ h3⟩

theorem not_delete1_props (table : List Booking) (t : Task) (h : delete1 table t = false) :
    t.date.length = 10 ∧ hyphenCount t.date = 2 ∧ strLtB t.date "2020-01-01" = false := by
  unfold delete1 at h
  split_ifs at h with h1 h2 h3
  simp only [Bool.or_eq_true, bne_iff_ne, ne_eq, not_or, not_not] at h2
  exact ⟨h2.1, h2.2, Bool.not_eq_true _ ▸ h3⟩

theorem delete1_true_of_bad (table : List Booking) (t : Task)
    (h : ¬(t.date.length = 10 ∧ hyphenCount t.date = 2 ∧ strLtB t.date "2020-01-01" = false)) :
    delete1 table t = true := by
  by_contra hc
  exact h (not_delete1_props table t (Bool.not_eq_true _ ▸ hc))

theorem delete2_false_of_not_auto (table : List Booking) (ids : List Int) (t : Task)
    (h : t.auto_generated = false) : delete2 table ids t = false := by
  unfold delete2
  simp [h]

theorem delete2_true_of_stale (table : List Booking) (ids : List Int) (t : Task)
    (bid : Int) (hauto : t.auto_generated = true) (hb : t.booking_id = some bid)
    (hbz : bid ≠ 0) (hnot : bid ∉ ids) : delete2 table ids t = true := by
  unfold delete2
  rw [hauto, hb]
  simp only [if_true]
  rw [if_neg (by simpa using hbz)]
  rw [if_pos]
  simp only [Bool.not_eq_true']
  simpa using hnot

/-! ## Claim C10 -/

/-- C10: after `upsert_tasks_from_bookings` runs over a non-empty booking
list, every remaining Task — of any provenance, including manual and
series-derived tasks with no booking reference — has a date string of
exactly 10 characters with exactly 2 hyphens that is not lexicographically
before "2020-01-01"; consequently every task violating any of these
(blank dates included) has been deleted. -/
theorem reconcile_purges_malformed_dates (input : List Booking) (st : DBState)
    (h0 : input ≠ []) :
    (∀ t ∈ (upsertTasksFromBookings input st).tasks,
      t.date.length = 10 ∧ hyphenCount t.date = 2 ∧ strLtB t.date "2020-01-01" = false) ∧
    (∀ t ∈ st.tasks,
      ¬(t.date.length = 10 ∧ hyphenCount t.date = 2 ∧ strLtB t.date "2020-01-01" = false) →
      t ∉ (upsertTasksFromBookings input st).tasks) := by
  have main : ∀ t ∈ (upsertTasksFromBookings input st).tasks,
      t.date.length = 10 ∧ hyphenCount t.date = 2 ∧ strLtB t.date "2020-01-01" = false := by
    intro t ht
    rw [upsert_tasks_eq input st h0] at ht
    rcases List.mem_append.mp ht with h | h
    · have h' := List.mem_filter.mp h
      have h'' := List.mem_filter.mp h'.1
      have hd1 : delete1 st.bookings t = false := by simpa using h''.2
      exact not_delete1_props _ _ hd1
    · rw [foldl_news_eq] at h
      simp only [List.nil_append] at h
      obtain ⟨b, hbm, heq⟩ := List.mem_map.mp h
      have hbacc : acceptB b = true :=
        (List.mem_filter.mp (List.mem_filter.mp hbm).1).2
      obtain ⟨l10, hy2, hge, _⟩ := acceptB_props b hbacc
      rw [← heq]
      exact ⟨l10, hy2, hge⟩
  exact ⟨main, fun t _ hbad hmem => hbad (main t hmem)⟩

/-- Witness for C10 at a concrete input: the manual task with date
`"garbage"` is deleted by the pass. -/
theorem reconcile_purges_malformed_dates_witness :
    ([exBooking1] : List Booking) ≠ [] ∧ exTaskBadDate ∈ exStateBadDate.tasks ∧
    ¬(exTaskBadDate.date.length = 10 ∧ hyphenCount exTaskBadDate.date = 2 ∧
      strLtB exTaskBadDate.date "2020-01-01" = false) ∧
    exTaskBadDate ∉ (upsertTasksFromBookings [exBooking1] exStateBadDate).tasks :=
  ⟨by decide, by decide, by decide,
    (reconcile_purges_malformed_dates [exBooking1] exStateBadDate (by decide)).2
      exTaskBadDate (by decide) (by decide)⟩

/-! ## Claim C2 -/

/-- C2 counterexample: a pre-existing task whose `booking_id` (5) is not in
the accepted booking-id set but whose `auto_generated` flag is `False`
survives the reconciliation pass, contradicting "deleted regardless of the
task's other fields (… provenance flags)". -/
theorem stale_task_with_nonauto_flag_survives :
    exTaskManualRef.booking_id = some 5 ∧ exTaskManualRef.auto_generated = false ∧
    (5 : Int) ∉ (([exBooking1].filter acceptB).map (·.id)) ∧
    exTaskManualRef ∈ exStateC2.tasks ∧
    exTaskManualRef ∈ (upsertTasksFromBookings [exBooking1] exStateC2).tasks :=
  ⟨rfl, rfl, by decide, by decide, by decide⟩

/-- C2 (amended): after the reconciliation pass over a non-empty booking
list, every pre-existing **auto-generated** Task with a **truthy** booking
reference (`booking_id` neither `NULL` nor `0`, Python falsiness) whose
booking id is not in the current accepted booking-id set has been deleted;
tasks with `auto_generated = False`, and tasks whose booking reference is
falsy, are exempt from this stale-deletion rule. -/
theorem stale_auto_tasks_deleted (input : List Booking) (st : DBState) (h0 : input ≠ [])
    (t : Task) (bid : Int) (hauto : t.auto_generated = true)
    (hb : t.booking_id = some bid) (hbz : bid ≠ 0)
    (hstale : bid ∉ (input.filter acceptB).map (·.id)) :
    t ∉ (upsertTasksFromBookings input st).tasks := by
  intro hmem
  rw [upsert_tasks_eq input st h0] at hmem
  rcases List.mem_append.mp hmem with h | h
  · have h' := List.mem_filter.mp h
    have hfalse : delete2 st.bookings ((input.filter acceptB).map (·.id)) t = false := by
      simpa using h'.2
    rw [delete2_true_of_stale _ _ t bid hauto hb hbz hstale] at hfalse
    cases hfalse
  · rw [foldl_news_eq] at h
    simp only [List.nil_append] at h
    obtain ⟨b, hbm, heq⟩ := List.mem_map.mp h
    have hbid : t.booking_id = some b.id := by
      rw [← heq]; rfl
    rw [hb] at hbid
    have : bid = b.id := by simpa using hbid
    have hbc : b ∈ input.filter acceptB := (List.mem_filter.mp hbm).1
    exact hstale (this ▸ List.mem_map_of_mem (·.id) hbc)

/-- Witness for the amended C2: a concrete auto-generated task referencing
the absent booking id 5 is deleted, while an auto-generated task with the
falsy booking reference `0` (equally absent from the accepted set)
survives. -/
theorem stale_auto_tasks_deleted_witness :
    exTaskAutoRef.auto_generated = true ∧
    (5 : Int) ∉ (([exBooking1].filter acceptB).map (·.id)) ∧
    exTaskAutoZero.auto_generated = true ∧ exTaskAutoZero.booking_id = some 0 ∧
    (0 : Int) ∉ (([exBooking1].filter acceptB).map (·.id)) ∧
    exTaskAutoZero ∈ (upsertTasksFromBookings [exBooking1]
      ⟨[exTaskAutoZero], [exBooking1], [], []⟩).tasks ∧
    exTaskAutoRef ∉ (upsertTasksFromBookings [exBooking1]
      ⟨[exTaskAutoRef], [exBooking1], [], []⟩).tasks :=
  ⟨rfl, by decide, rfl, rfl, by decide, by decide,
    stale_auto_tasks_deleted [exBooking1] ⟨[exTaskAutoRef], [exBooking1], [], []⟩
      (by decide) exTaskAutoRef 5 rfl rfl (by decide) (by decide)⟩

/-! ## Claim C1: counterexample -/

set_option maxRecDepth 3000 in
/-- C1 counterexample: the series `exSeriesCapped` has `count = 3`, yet two
`expand_series_job` calls (horizons 2024-01-22 and 2024-02-15) leave six
tasks for it — the cap only counts occurrences of the current call, so the
4th task is created by the second call. -/
theorem count_cap_exceeded_across_calls :
    exSeriesCapped.count = some 3 ∧
    ((expandSeriesJob exStateCapped ⟨2024, 1, 1⟩ 21).bind
        (fun s => expandSeriesJob s ⟨2024, 1, 16⟩ 30)).map
      (fun s => (s.tasks.filter (fun t => t.series_id == some exSeriesCapped.id)).length)
      = some 6 :=
  ⟨rfl, by decide⟩

/-! ## Claim C9: counterexample -/

set_option maxRecDepth 3000 in
/-- C9 counterexample: the monthly series with `bymonthday = "30,31"` clamps
both days to 2024-02-29; a single `expand_series_job` call creates **two**
tasks for the pair (series 1, "2024-02-29") because the `exists`
check-before-insert runs with `autoflush=False` and cannot see the first
pending row of its own batch. -/
theorem series_date_pair_duplicated :
    (expandSeriesJob exStateMonthdays ⟨2024, 2, 1⟩ 28).map
      (fun s => (s.tasks.filter
        (fun t => t.series_id == some 1 && t.date == "2024-02-29")).length) = some 2 := by
  decide

/-! ## Claim C3: counterexample -/

set_option maxRecDepth 3000 in
/-- C3 counterexample: the raw record `exRawBad` has `arrival = "abc"` and
`departure = "abd"` — non-empty, lexicographically ordered, but not
well-formed `YYYY-MM-DD` dates (3 characters, no hyphens).  The refresh pass
persists it as a Booking row anyway: only emptiness and
`departure <= arrival` are checked before persisting. -/
theorem refresh_persists_malformed_booking :
    ((refreshBookingsJob [exRawBad] ⟨[], [], [], []⟩).bookings.map
      (fun b => (b.id, b.arrival, b.departure))) = [(9, "abc", "abd")] ∧
    ("abc" : String).length ≠ 10 ∧ hyphenCount "abc" ≠ 2 :=
  ⟨by decide, by decide, by decide⟩

/-! ## Per-call occurrence-count bounds -/

theorem weeklyLoop_length_le (cond : Date → Bool) (c : Int) (hc : 0 < c) :
    ∀ (ds : List Date) (n : Nat), n < c.toNat →
      (weeklyLoop cond (some c) ds n).length ≤ c.toNat - n
  | [], _, _ => by simp [weeklyLoop]
  | d :: ds, n, hn => by
    rw [weeklyLoop]
    by_cases hcond : cond d = true
    · rw [if_pos hcond]
      by_cases hr : countReached (some c) (n + 1) = true
      · rw [if_pos hr]
        simp only [List.length_singleton]
        omega
      · rw [if_neg hr]
        have hlt : n + 1 < c.toNat := by
          unfold countReached at hr
          simp only [Bool.and_eq_true, bne_iff_ne, ne_eq, decide_eq_true_eq, not_and] at hr
          omega
        have := weeklyLoop_length_le cond c hc ds (n + 1) hlt
        simp only [List.length_cons]
        omega
    · rw [if_neg hcond]
      exact weeklyLoop_length_le cond c hc ds n hn

theorem monthlyEmit_bound (c : Int) (hc : 0 < c) (s0 sf hu cur : Date) :
    ∀ (mds : List Nat) (gen : Nat), gen < c.toNat →
      (monthlyEmit (some c) s0 sf hu cur mds gen).1.length ≤ c.toNat - gen ∧
      (monthlyEmit (some c) s0 sf hu cur mds gen).2.1 =
        gen + (monthlyEmit (some c) s0 sf hu cur mds gen).1.length ∧
      ((monthlyEmit (some c) s0 sf hu cur mds gen).2.2 = false →
        (monthlyEmit (some c) s0 sf hu cur mds gen).2.1 < c.toNat)
  | [], gen, hgen => by
    simp [monthlyEmit]
    omega
  | md :: rest, gen, hgen => by
    rw [monthlyEmit]
    by_cases hskip : (dateLtB ⟨cur.y, cur.m, min md (daysInMonth cur.y cur.m)⟩ s0 ||
        dateLtB ⟨cur.y, cur.m, min md (daysInMonth cur.y cur.m)⟩ sf ||
        dateLtB hu ⟨cur.y, cur.m, min md (daysInMonth cur.y cur.m)⟩) = true
    · rw [if_pos hskip]
      exact monthlyEmit_bound c hc s0 sf hu cur rest gen hgen
    · rw [if_neg hskip]
      by_cases hr : countReached (some c) (gen + 1) = true
      · rw [if_pos hr]
        refine ⟨by simpa using (by omega : 1 ≤ c.toNat - gen), rfl, by intro hcon; cases hcon⟩
      · rw [if_neg hr]
        have hlt : gen + 1 < c.toNat := by
          unfold countReached at hr
          simp only [Bool.and_eq_true, bne_iff_ne, ne_eq, decide_eq_true_eq, not_and] at hr
          omega
        obtain ⟨ih1, ih2, ih3⟩ := monthlyEmit_bound c hc s0 sf hu cur rest (gen + 1) hlt
        refine ⟨by dsimp only; simp only [List.length_cons]; omega,
          by dsimp only; simp only [List.length_cons]; omega, ?_⟩
        dsimp only
        intro hstop
        have := ih3 hstop
        omega

theorem monthlyLoop_length_le (c : Int) (hc : 0 < c) (s0 sf hu : Date) (mds : List Nat)
    (k : Nat) : ∀ (fuel : Nat) (cur : Date) (gen : Nat), gen < c.toNat →
      (monthlyLoop (some c) s0 sf hu mds k fuel cur gen).length ≤ c.toNat - gen
  | 0, _, _, _ => by simp [monthlyLoop]
  | fuel + 1, cur, gen, hgen => by
    rw [monthlyLoop]
    by_cases hle : dateLeB cur hu = true
    · rw [if_pos hle]
      obtain ⟨h1, h2, h3⟩ := monthlyEmit_bound c hc s0 sf hu cur mds gen hgen
      by_cases hstop : (monthlyEmit (some c) s0 sf hu cur mds gen).2.2 = true
      · rw [if_pos hstop]
        exact h1
      · rw [if_neg hstop]
        have hlt := h3 (by simpa using hstop)
        have := monthlyLoop_length_le c hc s0 sf hu mds k fuel (addMonths cur k)
          (monthlyEmit (some c) s0 sf hu cur mds gen).2.1 hlt
        rw [List.length_append]
        omega
    · rw [if_neg hle]
      simp

theorem yearlyLoop_length_le (c : Int) (hc : 0 < c) (s0 sf hu : Date) (k : Nat) :
    ∀ (fuel : Nat) (cur : Date) (gen : Nat) (l : List Date), gen < c.toNat →
      yearlyLoop (some c) s0 sf hu k fuel cur gen = some l → l.length ≤ c.toNat - gen
  | 0, _, gen, l, _, h => by
    rw [yearlyLoop] at h
    cases h
    simp
  | fuel + 1, cur, gen, l, hgen, h => by
    rw [yearlyLoop] at h
    by_cases hle : dateLeB cur hu = true
    · rw [if_pos hle] at h
      by_cases hin : (dateLeB s0 cur && dateLeB sf cur) = true
      · rw [if_pos hin] at h
        by_cases hr : countReached (some c) (gen + 1) = true
        · rw [if_pos hr] at h
          cases h
          simp only [List.length_singleton]
          omega
        · rw [if_neg hr] at h
          have hlt : gen + 1 < c.toNat := by
            unfold countReached at hr
            simp only [Bool.and_eq_true, bne_iff_ne, ne_eq, decide_eq_true_eq, not_and] at hr
            omega
          split at h
          · rename_i nxt hmk
            split at h
            · rename_i rest hrec
              cases h
              have := yearlyLoop_length_le c hc s0 sf hu k fuel nxt (gen + 1) rest hlt hrec
              simp only [List.length_cons]
              omega
            · cases h
          · cases h
      · rw [if_neg hin] at h
        split at h
        · rename_i nxt hmk
          exact yearlyLoop_length_le c hc s0 sf hu k fuel nxt gen l hgen h
        · cases h
    · rw [if_neg hle] at h
      cases h
      simp

theorem expandOcc_length_le (ser : TaskSeries) (sf untl : Date) (c : Int)
    (hcnt : ser.count = some c) (hc : 0 < c) (l : List Date)
    (h : expandSeriesOccurrences ser sf untl = some l) : l.length ≤ c.toNat := by
  unfold expandSeriesOccurrences at h
  by_cases hact : ser.active
  · rw [if_neg (by simpa using hact)] at h
    cases hp : parseDate ser.start_date with
    | none =>
      rw [hp] at h
      dsimp only at h
      cases h
      simp
    | some s0 =>
      rw [hp] at h
      dsimp only at h
      by_cases hlt : dateLtB (hardUntilOf ser untl) sf = true
      · rw [if_pos hlt] at h
        cases h
        simp
      · rw [if_neg hlt] at h
        rw [hcnt] at h
        by_cases hw : toLowerStr ser.frequency == "weekly"
        · rw [if_pos hw] at h
          cases h
          have := weeklyLoop_length_le
            (weeklyCond s0 (effWeekdays ser s0) (effInterval ser)) c hc
            (daterange (maxDate sf s0) (hardUntilOf ser untl)) 0 (by omega)
          omega
        · rw [if_neg hw] at h
          by_cases hm : toLowerStr ser.frequency == "monthly"
          · rw [if_pos hm] at h
            cases h
            have := monthlyLoop_length_le c hc s0 sf (hardUntilOf ser untl)
              (effMonthdays ser s0) (effInterval ser)
              (monthIndex (hardUntilOf ser untl) + 1)
              (monthlyAdvance (monthIndex sf + 1) s0 sf (effInterval ser)) 0 (by omega)
            omega
          · rw [if_neg hm] at h
            by_cases hy : toLowerStr ser.frequency == "yearly"
            · rw [if_pos hy] at h
              split at h
              · rename_i cur hadv
                have := yearlyLoop_length_le c hc s0 sf (hardUntilOf ser untl)
                  (effInterval ser) ((hardUntilOf ser untl).y + 1) cur 0 l (by omega) h
                omega
              · cases h
            · rw [if_neg hy] at h
              cases h
              by_cases hone : (dateLeB sf s0 && dateLeB s0 (hardUntilOf ser untl)) = true
              · rw [if_pos hone]
                simp only [List.length_singleton]
                omega
              · rw [if_neg hone]
                simp
  · rw [if_pos (by simpa using hact)] at h
    cases h
    simp

/-! ## New-task bounds per series within one `expand_series_job` call -/

theorem seriesNewTasks_length_le (ts : List Task) (ser : TaskSeries) (occ : List Date) :
    (seriesNewTasks ts ser occ).length ≤ occ.length := by
  unfold seriesNewTasks
  rw [List.length_map]
  exact List.length_filter_le _ _

theorem mem_seriesNewTasks (ts : List Task) (ser : TaskSeries) (occ : List Date)
    (u : Task) (hu : u ∈ seriesNewTasks ts ser occ) :
    ∃ d ∈ occ, u = mkSeriesTask ser d ∧
      (ts.any (fun t => t.series_id == some ser.id && t.date == isoformat d)) = false := by
  unfold seriesNewTasks at hu
  obtain ⟨d, hd, rfl⟩ := List.mem_map.mp hu
  have hd' := List.mem_filter.mp hd
  exact ⟨d, hd'.1, rfl, by simpa using hd'.2⟩

theorem seriesNewTasks_filter_other (ts : List Task) (ser : TaskSeries) (occ : List Date)
    (sid : Int) (h : ser.id ≠ sid) (p : Task → Bool)
    (hp : ∀ t, p t = true → t.series_id = some sid) :
    (seriesNewTasks ts ser occ).filter p = [] := by
  apply List.filter_eq_nil_iff.mpr
  intro u hu
  obtain ⟨d, _, rfl, _⟩ := mem_seriesNewTasks ts ser occ u hu
  intro hcon
  have : (mkSeriesTask ser d).series_id = some sid := hp _ hcon
  simp only [mkSeriesTask, Option.some.injEq] at this
  exact h this

theorem expandNews_filter_none (ts : List Task) (today horizon : Date) (sid : Int)
    (p : Task → Bool) (hp : ∀ t, p t = true → t.series_id = some sid) :
    ∀ (sers : List TaskSeries) (news : List Task),
      expandSeriesNewTasks ts today horizon sers = some news →
      (∀ ser' ∈ sers, ser'.id ≠ sid) → news.filter p = []
  | [], news, h, _ => by
    rw [expandSeriesNewTasks] at h
    cases h
    rfl
  | ser' :: rest, news, h, hall => by
    rw [expandSeriesNewTasks] at h
    split at h
    · cases h
    · rename_i sf hsf
      split at h
      · cases h
      · rename_i occ hocc
        split at h
        · rename_i more hmore
          cases h
          rw [List.filter_append,
            seriesNewTasks_filter_other ts ser' occ sid
              (hall ser' (List.mem_cons_self _ _)) p hp,
            expandNews_filter_none ts today horizon sid p hp rest more hmore
              (fun s hs => hall s (List.mem_cons_of_mem _ hs))]
          rfl
        · cases h

theorem expandNews_filter_le (ts : List Task) (today horizon : Date) (sid : Int)
    (bound : Nat) (p : Task → Bool) (hp : ∀ t, p t = true → t.series_id = some sid) :
    ∀ (sers : List TaskSeries) (news : List Task),
      expandSeriesNewTasks ts today horizon sers = some news →
      (∀ ser' ∈ sers, ser'.id = sid → ∀ sf occ, seriesStartFrom ts ser' today = some sf →
        expandSeriesOccurrences ser' sf horizon = some occ → occ.length ≤ bound) →
      (sers.map (·.id)).Nodup →
      (news.filter p).length ≤ bound
  | [], news, h, _, _ => by
    rw [expandSeriesNewTasks] at h
    cases h
    simp
  | ser' :: rest, news, h, hbd, hN => by
    rw [expandSeriesNewTasks] at h
    split at h
    · cases h
    · rename_i sf hsf
      split at h
      · cases h
      · rename_i occ hocc
        split at h
        · rename_i more hmore
          cases h
          rw [List.map_cons, List.nodup_cons] at hN
          rw [List.filter_append, List.length_append]
          by_cases hid : ser'.id = sid
          · have hrest0 : more.filter p = [] := by
              apply expandNews_filter_none ts today horizon sid p hp rest more hmore
              intro s hs hcon
              have hmem : ser'.id ∈ rest.map (·.id) := by
                rw [hid, ← hcon]
                exact List.mem_map_of_mem (fun x => x.id) hs
              exact hN.1 hmem
            rw [hrest0]
            have h1 : ((seriesNewTasks ts ser' occ).filter p).length ≤
                (seriesNewTasks ts ser' occ).length := List.length_filter_le _ _
            have h2 := seriesNewTasks_length_le ts ser' occ
            have h3 := hbd ser' (List.mem_cons_self _ _) hid sf occ hsf hocc
            simp only [List.length_nil]
            omega
          · rw [seriesNewTasks_filter_other ts ser' occ sid hid p hp]
            have := expandNews_filter_le ts today horizon sid bound p hp rest more hmore
              (fun s hs hsid => hbd s (List.mem_cons_of_mem _ hs) hsid) hN.2
            simpa using this
        · cases h

theorem mem_expandNews (ts : List Task) (today horizon : Date) :
    ∀ (sers : List TaskSeries) (news : List Task),
      expandSeriesNewTasks ts today horizon sers = some news →
      ∀ u ∈ news, ∃ ser' ∈ sers, ∃ sf occ, seriesStartFrom ts ser' today = some sf ∧
        expandSeriesOccurrences ser' sf horizon = some occ ∧ u ∈ seriesNewTasks ts ser' occ
  | [], news, h, u => by
    rw [expandSeriesNewTasks] at h
    cases h
    intro hu
    cases hu
  | ser' :: rest, news, h, u => by
    rw [expandSeriesNewTasks] at h
    split at h
    · cases h
    · rename_i sf hsf
      split at h
      · cases h
      · rename_i occ hocc
        split at h
        · rename_i more hmore
          cases h
          intro hu
          rcases List.mem_append.mp hu with hu' | hu'
          · exact ⟨ser', List.mem_cons_self _ _, sf, occ, hsf, hocc, hu'⟩
          · obtain ⟨s, hs, sf', occ', h1, h2, h3⟩ :=
              mem_expandNews ts today horizon rest more hmore u hu'
            exact ⟨s, List.mem_cons_of_mem _ hs, sf', occ', h1, h2, h3⟩
        · cases h

/-- The task rows of a successful `expand_series_job` call are the old ones
followed by the staged new ones. -/
theorem expandSeriesJob_tasks (st : DBState) (today : Date) (daysAhead : Nat)
    (st' : DBState) (hrun : expandSeriesJob st today daysAhead = some st') :
    ∃ news, expandSeriesNewTasks st.tasks today (addDays today daysAhead)
        (st.series.filter (·.active)) = some news ∧
      st'.tasks = st.tasks ++ news ∧ st'.series = st.series ∧
      st'.bookings = st.bookings ∧ st'.apartments = st.apartments := by
  unfold expandSeriesJob at hrun
  split at hrun
  · rename_i news hnews
    cases hrun
    exact ⟨news, hnews, rfl, rfl, rfl, rfl⟩
  · cases hrun

/-! ## Claim C1: amended theorem -/

/-- C1 (amended): the occurrence cap `count = c` bounds how many tasks a
**single** `expand_series_job` call creates for a series — the task count
for the series grows by at most `c` per call.  The cap counts only the
occurrences produced by the current call (the counter restarts at zero each
call and the watermark advances `start_from` past already-generated tasks),
so the total over several calls is not capped at `c`. -/
theorem count_cap_per_call (st : DBState) (today : Date) (daysAhead : Nat)
    (st' : DBState) (hrun : expandSeriesJob st today daysAhead = some st')
    (ser : TaskSeries) (hser : ser ∈ st.series) (c : Int) (hcnt : ser.count = some c)
    (hc : 0 < c) (hN : (st.series.map (·.id)).Nodup) :
    (st'.tasks.filter (fun t => t.series_id == some ser.id)).length ≤
      (st.tasks.filter (fun t => t.series_id == some ser.id)).length + c.toNat := by
  obtain ⟨news, hnews, htasks, -, -, -⟩ :=
    expandSeriesJob_tasks st today daysAhead st' hrun
  rw [htasks, List.filter_append, List.length_append]
  have hp : ∀ t : Task, (t.series_id == some ser.id) = true → t.series_id = some ser.id :=
    fun t ht => by simpa using ht
  have hb : (news.filter (fun t => t.series_id == some ser.id)).length ≤ c.toNat := by
    apply expandNews_filter_le st.tasks today (addDays today daysAhead) ser.id c.toNat
      _ hp _ news hnews
    · intro ser' hser' hid sf occ hsf hocc
      have hser'' : ser' ∈ st.series := (List.mem_filter.mp hser').1
      have : ser' = ser := List.inj_on_of_nodup_map hN hser'' hser hid
      subst this
      exact expandOcc_length_le ser' sf _ c hcnt hc occ hocc
    · exact hN.sublist ((List.filter_sublist _).map _)
  omega

set_option maxRecDepth 3000 in
/-- Witness for the amended C1 at a concrete input: one call on the
`count = 3` series creates exactly its three tasks, within the per-call cap. -/
theorem count_cap_per_call_witness :
    expandSeriesJob exStateCapped ⟨2024, 1, 1⟩ 21 =
      some ⟨[mkSeriesTask exSeriesCapped ⟨2024, 1, 1⟩,
             mkSeriesTask exSeriesCapped ⟨2024, 1, 8⟩,
             mkSeriesTask exSeriesCapped ⟨2024, 1, 15⟩], [], [], [exSeriesCapped]⟩ ∧
    (((⟨[mkSeriesTask exSeriesCapped ⟨2024, 1, 1⟩,
          mkSeriesTask exSeriesCapped ⟨2024, 1, 8⟩,
          mkSeriesTask exSeriesCapped ⟨2024, 1, 15⟩], [], [], [exSeriesCapped]⟩ :
        DBState).tasks.filter (fun t => t.series_id == some exSeriesCapped.id)).length ≤
      (exStateCapped.tasks.filter
        (fun t => t.series_id == some exSeriesCapped.id)).length + (3 : Int).toNat) :=
  ⟨by decide,
    count_cap_per_call exStateCapped ⟨2024, 1, 1⟩ 21 _ (by decide) exSeriesCapped
      (by decide) 3 rfl (by decide) (by decide)⟩

/-! ## Claim C9: amended theorem -/

/-- C9 (amended): a (series id, date) pair that already has a Task at the
start of an `expand_series_job` call never gains another one from that call
— an occurrence date already represented by a committed Task is skipped.
(The weaker statement is necessary: within one call's batch, duplicate
occurrence dates — e.g. two `bymonthday` values clamped to the same
end-of-month day — each create a Task, as the counterexample shows.) -/
theorem series_existing_pair_not_duplicated (st : DBState) (today : Date)
    (daysAhead : Nat) (st' : DBState)
    (hrun : expandSeriesJob st today daysAhead = some st') (sid : Int) (dstr : String)
    (hpre : 0 < (st.tasks.filter
      (fun t => t.series_id == some sid && t.date == dstr)).length) :
    (st'.tasks.filter (fun t => t.series_id == some sid && t.date == dstr)).length =
      (st.tasks.filter (fun t => t.series_id == some sid && t.date == dstr)).length := by
  obtain ⟨news, hnews, htasks, -, -, -⟩ :=
    expandSeriesJob_tasks st today daysAhead st' hrun
  rw [htasks, List.filter_append, List.length_append]
  have hnil : news.filter (fun t => t.series_id == some sid && t.date == dstr) = [] := by
    apply List.filter_eq_nil_iff.mpr
    intro u hu hcon
    obtain ⟨ser', -, sf, occ, -, -, hmem⟩ :=
      mem_expandNews st.tasks today (addDays today daysAhead) _ news hnews u hu
    obtain ⟨d, -, rfl, hany⟩ := mem_seriesNewTasks st.tasks ser' occ u hmem
    simp only [mkSeriesTask, Bool.and_eq_true, beq_iff_eq, Option.some.injEq] at hcon
    obtain ⟨hid, hdate⟩ := hcon
    obtain ⟨t0, ht0⟩ := List.exists_mem_of_length_pos hpre
    have ht0' := List.mem_filter.mp ht0
    have ht0p := ht0'.2
    simp only [Bool.and_eq_true, beq_iff_eq, Option.some.injEq] at ht0p
    have : st.tasks.any
        (fun t => t.series_id == some ser'.id && t.date == isoformat d) = true := by
      apply List.any_eq_true.mpr
      exact ⟨t0, ht0'.1, by simp [ht0p.1, ht0p.2, hid, hdate]⟩
    rw [this] at hany
    cases hany
  rw [hnil]
  simp

set_option maxRecDepth 3000 in
/-- Witness for the amended C9: a state holding a task for
(series 1, "2024-02-29") keeps exactly that one task for the pair after a
further `expand_series_job` call. -/
theorem series_existing_pair_not_duplicated_witness :
    expandSeriesJob
        ⟨[mkSeriesTask exSeriesMonthdays ⟨2024, 2, 29⟩], [], [], [exSeriesMonthdays]⟩
        ⟨2024, 2, 1⟩ 28 =
      some ⟨[mkSeriesTask exSeriesMonthdays ⟨2024, 2, 29⟩], [], [], [exSeriesMonthdays]⟩ ∧
    (((⟨[mkSeriesTask exSeriesMonthdays ⟨2024, 2, 29⟩], [], [], [exSeriesMonthdays]⟩ :
        DBState).tasks.filter
      (fun t => t.series_id == some 1 && t.date == "2024-02-29")).length =
      ((⟨[mkSeriesTask exSeriesMonthdays ⟨2024, 2, 29⟩], [], [], [exSeriesMonthdays]⟩ :
        DBState).tasks.filter
      (fun t => t.series_id == some 1 && t.date == "2024-02-29")).length) :=
  ⟨by decide,
    series_existing_pair_not_duplicated
      ⟨[mkSeriesTask exSeriesMonthdays ⟨2024, 2, 29⟩], [], [], [exSeriesMonthdays]⟩
      ⟨2024, 2, 1⟩ 28 _ (by decide) 1 "2024-02-29" (by decide)⟩

/-! ## Order properties of the Python string comparison -/

theorem strLtCh_trans :
    ∀ (as bs cs : List Char), strLtCh as bs = true → strLtCh bs cs = true →
      strLtCh as cs = true
  | [], [], _, h1, _ => by simp [strLtCh] at h1
  | [], _ :: _, [], _, h2 => by simp [strLtCh] at h2
  | [], _ :: _, _ :: _, _, _ => rfl
  | _ :: _, [], _, h1, _ => by simp [strLtCh] at h1
  | _ :: _, _ :: _, [], _, h2 => by simp [strLtCh] at h2
  | a :: as, b :: bs, c :: cs, h1, h2 => by
    rw [strLtCh]
    rcases lt_trichotomy a b with hab | rfl | hba
    · rcases lt_trichotomy b c with hbc | rfl | hcb
      · rw [if_pos (hab.trans hbc)]
      · rw [if_pos hab]
      · rw [strLtCh, if_neg (lt_asymm hcb), if_pos hcb] at h2
        cases h2
    · rw [strLtCh, if_neg (lt_irrefl a)] at h1
      simp only [if_neg (lt_irrefl a)] at h1
      rcases lt_trichotomy a c with hac | rfl | hca
      · rw [if_pos hac]
      · rw [strLtCh, if_neg (lt_irrefl a)] at h2
        simp only [if_neg (lt_irrefl a)] at h2
        rw [if_neg (lt_irrefl a)]
        simp only [if_neg (lt_irrefl a)]
        exact strLtCh_trans as bs cs h1 h2
      · rw [strLtCh, if_neg (lt_asymm hca), if_pos hca] at h2
        cases h2
    · rw [strLtCh, if_neg (lt_asymm hba), if_pos hba] at h1
      cases h1

theorem strLtCh_asymm :
    ∀ (as bs : List Char), strLtCh as bs = true → strLtCh bs as = false
  | [], [], h => by simp [strLtCh] at h
  | [], _ :: _, _ => rfl
  | _ :: _, [], h => by simp [strLtCh] at h
  | a :: as, b :: bs, h => by
    rw [strLtCh]
    rcases lt_trichotomy a b with hab | rfl | hba
    · rw [if_neg (lt_asymm hab), if_pos hab]
    · rw [strLtCh, if_neg (lt_irrefl a)] at h
      simp only [if_neg (lt_irrefl a)] at h
      rw [if_neg (lt_irrefl a)]
      simp only [if_neg (lt_irrefl a)]
      exact strLtCh_asymm as bs h
    · rw [strLtCh, if_neg (lt_asymm hba), if_pos hba] at h
      cases h

theorem strLtCh_connex :
    ∀ (as bs : List Char), strLtCh as bs = false → strLtCh bs as = false → as = bs
  | [], [], _, _ => rfl
  | [], _ :: _, h1, _ => by simp [strLtCh] at h1
  | _ :: _, [], _, h2 => by simp [strLtCh] at h2
  | a :: as, b :: bs, h1, h2 => by
    rcases lt_trichotomy a b with hab | rfl | hba
    · rw [strLtCh, if_pos hab] at h1
      cases h1
    · rw [strLtCh, if_neg (lt_irrefl a)] at h1 h2
      simp only [if_neg (lt_irrefl a)] at h1 h2
      rw [strLtCh_connex as bs h1 h2]
    · rw [strLtCh, if_pos hba] at h2
      cases h2

theorem string_data_eq {s t : String} (h : s.data = t.data) : s = t := by
  cases s
  cases t
  exact congrArg String.mk h

theorem strLtB_trans {s t u : String} (h1 : strLtB s t = true) (h2 : strLtB t u = true) :
    strLtB s u = true :=
  strLtCh_trans s.data t.data u.data h1 h2

theorem strLtB_asymm {s t : String} (h : strLtB s t = true) : strLtB t s = false :=
  strLtCh_asymm s.data t.data h

theorem strLtB_connex {s t : String} (h1 : strLtB s t = false) (h2 : strLtB t s = false) :
    s = t :=
  string_data_eq (strLtCh_connex s.data t.data h1 h2)

theorem strLtB_irrefl (s : String) : strLtB s s = false := by
  by_cases h : strLtB s s = true
  · have := strLtB_asymm h
    rw [this] at h
    cases h
  · simpa using h

theorem strLt_of_not_le {s t : String} (h : strLeB s t = false) : strLtB t s = true := by
  unfold strLeB at h
  simp only [Bool.or_eq_false_iff, beq_eq_false_iff_ne, ne_eq] at h
  by_cases hc : strLtB t s = true
  · exact hc
  · exact absurd (strLtB_connex h.1 (by simpa using hc)) h.2

theorem strLeB_of_lt {s t : String} (h : strLtB s t = true) : strLeB s t = true := by
  unfold strLeB
  rw [h]
  rfl

theorem strLeB_refl (s : String) : strLeB s s = true := by
  unfold strLeB
  simp

theorem strLeB_total (s t : String) : strLeB s t = true ∨ strLeB t s = true := by
  by_cases h : strLeB s t = true
  · exact Or.inl h
  · exact Or.inr (strLeB_of_lt (strLt_of_not_le (by simpa using h)))

theorem strLeB_trans {s t u : String} (h1 : strLeB s t = true) (h2 : strLeB t u = true) :
    strLeB s u = true := by
  unfold strLeB at h1 h2 ⊢
  simp only [Bool.or_eq_true, beq_iff_eq] at h1 h2 ⊢
  rcases h1 with h1 | rfl
  · rcases h2 with h2 | rfl
    · exact Or.inl (strLtB_trans h1 h2)
    · exact Or.inl h1
  · exact h2

/-! ## Claim C3: amended theorem -/

theorem rawShouldSkip_false_props (it : RawItem) (h : rawShouldSkip it = false) :
    blankStr (takeStr it.departure 10) = false ∧ blankStr (takeStr it.arrival 10) = false ∧
      strLeB (takeStr it.departure 10) (takeStr it.arrival 10) = false := by
  unfold rawShouldSkip at h
  simp only [Bool.or_eq_false_iff] at h
  have hdate := h.2
  split_ifs at hdate with h1 h2
  exact ⟨Bool.not_eq_true _ ▸ h1, Bool.not_eq_true _ ▸ h2, hdate⟩

theorem refreshStep_mem_bookings (st : DBState) (it : RawItem) (b : Booking)
    (hb : b ∈ (refreshStep st it).bookings) (hne : b.id ≠ it.id) : b ∈ st.bookings := by
  simp only [refreshStep] at hb
  by_cases hskip : rawShouldSkip it = true
  · rw [if_pos hskip] at hb
    exact (List.mem_filter.mp hb).1
  · rw [if_neg hskip] at hb
    by_cases hex : st.bookings.any (fun b0 => b0.id == it.id) = true
    · rw [if_pos hex] at hb
      obtain ⟨x, hx, hmap⟩ := List.mem_map.mp hb
      by_cases hxid : (x.id == it.id) = true
      · rw [if_pos hxid] at hmap
        have : b.id = it.id := by
          rw [← hmap]
          simpa using hxid
        exact absurd this hne
      · rw [if_neg hxid] at hmap
        exact hmap ▸ hx
    · rw [if_neg hex] at hb
      rcases List.mem_append.mp hb with hb' | hb'
      · exact hb'
      · have : b.id = it.id := by
          rcases List.mem_singleton.mp hb' with rfl
          rfl
        exact absurd this hne

theorem refresh_fold_mem_untouched :
    ∀ (items : List RawItem) (st : DBState) (b : Booking),
      b ∈ (items.foldl refreshStep st).bookings → b.id ∉ items.map (·.id) →
      b ∈ st.bookings
  | [], _, _, hb, _ => hb
  | it :: rest, st, b, hb, hnot => by
    rw [List.foldl_cons] at hb
    have h1 : b ∈ (refreshStep st it).bookings :=
      refresh_fold_mem_untouched rest _ b hb
        (fun hc => hnot (by simp only [List.map_cons, List.mem_cons]; exact Or.inr hc))
    exact refreshStep_mem_bookings st it b h1
      (fun hc => hnot (by simp only [List.map_cons, List.mem_cons]; exact Or.inl hc))

theorem refreshStep_own_id_good (st : DBState) (it : RawItem) (b : Booking)
    (hb : b ∈ (refreshStep st it).bookings) (hbid : b.id = it.id) :
    blankStr b.arrival = false ∧ blankStr b.departure = false ∧
      strLeB b.departure b.arrival = false := by
  simp only [refreshStep] at hb
  by_cases hskip : rawShouldSkip it = true
  · rw [if_pos hskip] at hb
    have := (List.mem_filter.mp hb).2
    simp only [bne_iff_ne, ne_eq, decide_eq_true_eq] at this
    exact absurd hbid (by simpa using this)
  · obtain ⟨hd, ha, ho⟩ := rawShouldSkip_false_props it (by simpa using hskip)
    rw [if_neg hskip] at hb
    by_cases hex : st.bookings.any (fun b0 => b0.id == it.id) = true
    · rw [if_pos hex] at hb
      obtain ⟨x, hx, hmap⟩ := List.mem_map.mp hb
      by_cases hxid : (x.id == it.id) = true
      · rw [if_pos hxid] at hmap
        rw [← hmap]
        exact ⟨ha, hd, ho⟩
      · rw [if_neg hxid] at hmap
        subst hmap
        exact absurd hbid (by simpa using hxid)
    · rw [if_neg hex] at hb
      rcases List.mem_append.mp hb with hb' | hb'
      · exact absurd (List.any_eq_true.mpr ⟨b, hb', by simpa using hbid⟩) hex
      · rcases List.mem_singleton.mp hb' with rfl
        exact ⟨ha, hd, ho⟩

theorem refresh_fold_bookings_good :
    ∀ (items : List RawItem) (st : DBState) (b : Booking),
      b ∈ (items.foldl refreshStep st).bookings → b.id ∈ items.map (·.id) →
      blankStr b.arrival = false ∧ blankStr b.departure = false ∧
        strLeB b.departure b.arrival = false
  | [], _, _, _, hid => by simp at hid
  | it :: rest, st, b, hb, hid => by
    rw [List.foldl_cons] at hb
    by_cases hin : b.id ∈ rest.map (·.id)
    · exact refresh_fold_bookings_good rest _ b hb hin
    · have hbid : b.id = it.id := by
        simp only [List.map_cons, List.mem_cons] at hid
        rcases hid with h | h
        · exact h
        · exact absurd h hin
      have hb0 : b ∈ (refreshStep st it).bookings :=
        refresh_fold_mem_untouched rest _ b hb hin
      exact refreshStep_own_id_good st it b hb0 hbid

/-- C3 (amended): every Booking row that the refresh pass leaves in the cache
for one of the processed record ids has non-empty, non-blank arrival and
departure strings with `departure > arrival` in Python string order.  The
`YYYY-MM-DD` well-formedness (10 characters, 2 hyphens) and the 2020 floor
are **not** checked before persisting — they are enforced only when Tasks
are derived (`upsert_tasks_from_bookings`), and a cached Booking is deleted
together with its tasks only when its refreshed record is skipped
(cancelled / blocked / internal / draft / pending / on-hold, blank arrival
or departure, or `departure <= arrival`), not for format violations. -/
theorem refresh_accepted_bookings_have_ordered_dates (items : List RawItem)
    (st : DBState) (b : Booking) (hb : b ∈ (refreshBookingsJob items st).bookings)
    (hid : b.id ∈ items.map (·.id)) :
    blankStr b.arrival = false ∧ blankStr b.departure = false ∧
      strLtB b.arrival b.departure = true := by
  have heq : (refreshBookingsJob items st).bookings =
      (items.foldl refreshStep st).bookings := by
    unfold refreshBookingsJob
    exact upsert_bookings_eq _ _
  rw [heq] at hb
  obtain ⟨h1, h2, h3⟩ := refresh_fold_bookings_good items st b hb hid
  exact ⟨h1, h2, strLt_of_not_le h3⟩

set_option maxRecDepth 3000 in
/-- Witness for the amended C3: a valid raw record is persisted with ordered,
non-blank dates. -/
theorem refresh_accepted_bookings_have_ordered_dates_witness :
    (⟨1, some 7, "X", "2024-01-01", "2024-01-05", 0, some 2, some 0, "", "g1"⟩ : Booking) ∈
      (refreshBookingsJob
        [⟨1, some 7, "X", "2024-01-01", "2024-01-05", "", "", false, false, false,
          some 2, some 0, "", "g1"⟩] ⟨[], [], [], []⟩).bookings ∧
    ((1 : Int) ∈ ([⟨1, some 7, "X", "2024-01-01", "2024-01-05", "", "", false, false, false,
        some 2, some 0, "", "g1"⟩] : List RawItem).map (·.id)) ∧
    (blankStr "2024-01-01" = false ∧ blankStr "2024-01-05" = false ∧
      strLtB "2024-01-01" "2024-01-05" = true) :=
  ⟨by decide, by decide,
    refresh_accepted_bookings_have_ordered_dates
      [⟨1, some 7, "X", "2024-01-01", "2024-01-05", "", "", false, false, false,
        some 2, some 0, "", "g1"⟩] ⟨[], [], [], []⟩
      ⟨1, some 7, "X", "2024-01-01", "2024-01-05", 0, some 2, some 0, "", "g1"⟩
      (by decide) (by decide)⟩

/-! ## Key-order lemmas for the apartment-group sort -/

theorem keyLeB_total (a b : Booking) : keyLeB a b = true ∨ keyLeB b a = true := by
  unfold keyLeB
  by_cases h1 : strLtB a.arrival b.arrival = true
  · exact Or.inl (by rw [h1]; rfl)
  · by_cases h2 : strLtB b.arrival a.arrival = true
    · exact Or.inr (by rw [h2]; rfl)
    · have heq : a.arrival = b.arrival :=
        strLtB_connex (by simpa using h1) (by simpa using h2)
      rcases strLeB_total a.departure b.departure with h3 | h3
      · refine Or.inl ?_
        rw [heq, h3]
        simp
      · refine Or.inr ?_
        rw [heq, h3]
        simp

theorem keyLeB_trans {a b c : Booking} (h1 : keyLeB a b = true) (h2 : keyLeB b c = true) :
    keyLeB a c = true := by
  unfold keyLeB at h1 h2 ⊢
  simp only [Bool.or_eq_true, Bool.and_eq_true, beq_iff_eq] at h1 h2 ⊢
  rcases h1 with h1 | ⟨h1e, h1d⟩
  · rcases h2 with h2 | ⟨h2e, h2d⟩
    · exact Or.inl (strLtB_trans h1 h2)
    · exact Or.inl (h2e ▸ h1)
  · rcases h2 with h2 | ⟨h2e, h2d⟩
    · exact Or.inl (h1e ▸ h2)
    · exact Or.inr ⟨h1e.trans h2e, strLeB_trans h1d h2d⟩

theorem keyLeB_refl (a : Booking) : keyLeB a a = true := by
  rcases keyLeB_total a a with h | h <;> exact h

/-! ## Stable insertion sort: permutation and sortedness -/

theorem orderedInsertB_perm (le : α → α → Bool) (x : α) :
    ∀ (l : List α), (orderedInsertB le x l).Perm (x :: l)
  | [] => List.Perm.refl _
  | y :: ys => by
    rw [orderedInsertB]
    by_cases h : le x y = true
    · rw [if_pos h]
    · rw [if_neg h]
      exact ((orderedInsertB_perm le x ys).cons y).trans (List.Perm.swap x y ys)

theorem insertionSortB_perm (le : α → α → Bool) :
    ∀ (l : List α), (insertionSortB le l).Perm l
  | [] => List.Perm.refl _
  | x :: xs =>
    (orderedInsertB_perm le x (insertionSortB le xs)).trans
      ((insertionSortB_perm le xs).cons x)

theorem orderedInsertB_pairwise (le : α → α → Bool)
    (htot : ∀ a b, le a b = true ∨ le b a = true)
    (htrans : ∀ a b c, le a b = true → le b c = true → le a c = true) (x : α) :
    ∀ (l : List α), l.Pairwise (fun a b => le a b = true) →
      (orderedInsertB le x l).Pairwise (fun a b => le a b = true)
  | [], _ => List.pairwise_singleton _ _
  | y :: ys, hp => by
    rw [orderedInsertB]
    rcases List.pairwise_cons.mp hp with ⟨hy, hys⟩
    by_cases h : le x y = true
    · rw [if_pos h]
      refine List.pairwise_cons.mpr ⟨?_, hp⟩
      intro z hz
      rcases List.mem_cons.mp hz with rfl | hz'
      · exact h
      · exact htrans x y z h (hy z hz')
    · rw [if_neg h]
      refine List.pairwise_cons.mpr ⟨?_, orderedInsertB_pairwise le htot htrans x ys hys⟩
      intro z hz
      rcases List.mem_cons.mp ((orderedInsertB_perm le x ys).mem_iff.mp hz) with rfl | hz2
      · rcases htot z y with hxy | hyx
        · exact absurd hxy h
        · exact hyx
      · exact hy z hz2

theorem insertionSortB_pairwise (le : α → α → Bool)
    (htot : ∀ a b, le a b = true ∨ le b a = true)
    (htrans : ∀ a b c, le a b = true → le b c = true → le a c = true) :
    ∀ (l : List α), (insertionSortB le l).Pairwise (fun a b => le a b = true)
  | [] => List.Pairwise.nil
  | x :: xs =>
    orderedInsertB_pairwise le htot htrans x (insertionSortB le xs)
      (insertionSortB_pairwise le htot htrans xs)

theorem find?_min_of_pairwise (le : α → α → Bool) (p : α → Bool)
    (hrefl : ∀ a, le a a = true) :
    ∀ (l : List α), l.Pairwise (fun a b => le a b = true) → ∀ (a : α),
      l.find? p = some a → ∀ b ∈ l, p b = true → le a b = true
  | [], _, a, h => by simp at h
  | x :: xs, hp, a, h => by
    intro b hb hpb
    rcases List.pairwise_cons.mp hp with ⟨hx, hxs⟩
    by_cases hpx : p x = true
    · rw [List.find?_cons_of_pos _ hpx] at h
      injection h with h
      rcases List.mem_cons.mp hb with rfl | hb'
      · rw [← h]
        exact hrefl _
      · rw [← h]
        exact hx b hb'
    · rw [List.find?_cons_of_neg _ (by simpa using hpx)] at h
      rcases List.mem_cons.mp hb with rfl | hb'
      · exact absurd hpb hpx
      · exact find?_min_of_pairwise le p hrefl xs hxs a h b hb' hpb

/-! ## Locating the dict entry of `_index_next_arrivals` -/

theorem mem_dedupFirstAux [BEq α] [LawfulBEq α] :
    ∀ (seen l : List α) (x : α), x ∈ l → seen.contains x = false →
      x ∈ dedupFirstAux seen l
  | _, [], _, hx, _ => absurd hx (List.not_mem_nil _)
  | seen, a :: as, x, hx, hseen => by
    rw [dedupFirstAux]
    by_cases ha : seen.contains a = true
    · rw [if_pos ha]
      rcases List.mem_cons.mp hx with rfl | hx'
      · rw [ha] at hseen
        cases hseen
      · exact mem_dedupFirstAux seen as x hx' hseen
    · rw [if_neg ha]
      rcases List.mem_cons.mp hx with rfl | hx'
      · exact List.mem_cons_self _ _
      · by_cases hxa : x = a
        · exact hxa ▸ List.mem_cons_self _ _
        · refine List.mem_cons_of_mem _ (mem_dedupFirstAux (a :: seen) as x hx' ?_)
          simp only [List.contains_cons, Bool.or_eq_false_iff]
          exact ⟨by simpa using (fun hc => hxa (by simpa using hc)), hseen⟩
  termination_by _ l => l.length

theorem mem_aptKeys (bookings : List Booking) (B : Booking) (hB : B ∈ bookings) :
    B.apartment_id ∈ aptKeys bookings :=
  mem_dedupFirstAux [] _ B.apartment_id (List.mem_map_of_mem (·.apartment_id) hB) rfl

theorem mem_sortedGroup_self (bookings : List Booking) (B : Booking) (hB : B ∈ bookings) :
    B ∈ sortedGroup bookings B.apartment_id := by
  apply (insertionSortB_perm keyLeB _).mem_iff.mpr
  exact List.mem_filter.mpr ⟨hB, by simp⟩

theorem mem_sortedGroup_src (bookings : List Booking) (k : Option Int) (b : Booking)
    (hb : b ∈ sortedGroup bookings k) : b ∈ bookings ∧ b.apartment_id = k := by
  have := List.mem_filter.mp ((insertionSortB_perm keyLeB _).mem_iff.mp hb)
  exact ⟨this.1, by simpa using this.2⟩

theorem nextInfoList_entry_unique (bookings : List Booking)
    (hN : (bookings.map (·.id)).Nodup) (B : Booking) (hB : B ∈ bookings)
    (e : Int × NextInfo) (he : e ∈ nextInfoList bookings) (hid : e.1 = B.id) :
    e = (B.id, nextInfoFor (sortedGroup bookings B.apartment_id) B) := by
  unfold nextInfoList at he
  obtain ⟨k, -, he'⟩ := List.mem_flatMap.mp he
  obtain ⟨b, hb, hbe⟩ := List.mem_map.mp he'
  obtain ⟨hbsrc, hbk⟩ := mem_sortedGroup_src bookings k b hb
  have hbid : b.id = B.id := by
    rw [← hbe] at hid
    exact hid
  have hbB : b = B := List.inj_on_of_nodup_map hN hbsrc hB hbid
  subst hbB
  subst hbk
  rw [← hbe]

theorem nextInfoList_entry_mem (bookings : List Booking) (B : Booking)
    (hB : B ∈ bookings) :
    (B.id, nextInfoFor (sortedGroup bookings B.apartment_id) B) ∈
      nextInfoList bookings := by
  unfold nextInfoList
  apply List.mem_flatMap.mpr
  exact ⟨B.apartment_id, mem_aptKeys bookings B hB,
    List.mem_map.mpr ⟨B, mem_sortedGroup_self bookings B hB, rfl⟩⟩

theorem nextMapGet_eq (bookings : List Booking) (hN : (bookings.map (·.id)).Nodup)
    (B : Booking) (hB : B ∈ bookings) :
    nextMapGet bookings B.id = nextInfoFor (sortedGroup bookings B.apartment_id) B := by
  unfold nextMapGet
  cases hf : (nextInfoList bookings).reverse.find? (fun p => p.1 == B.id) with
  | none =>
    exfalso
    have hmem : (B.id, nextInfoFor (sortedGroup bookings B.apartment_id) B) ∈
        (nextInfoList bookings).reverse :=
      List.mem_reverse.mpr (nextInfoList_entry_mem bookings B hB)
    exact absurd (by simp : ((B.id, nextInfoFor (sortedGroup bookings B.apartment_id) B).1
        == B.id) = true)
      (List.find?_eq_none.mp hf _ hmem)
  | some e =>
    have he : e ∈ nextInfoList bookings :=
      List.mem_reverse.mp (List.mem_of_find?_eq_some hf)
    have hid : e.1 = B.id := by simpa using List.find?_some hf
    have := nextInfoList_entry_unique bookings hN B hB e he hid
    rw [this]

/-! ## Claim C6 -/

/-- C6: for a booking set (distinct ids) and any booking `B` in it, the
next-arrival index either reports all-null fields — exactly when no other
booking of `B`'s apartment group has an arrival on or after `B`'s departure
— or reports the fields of a booking `nb` of the group satisfying that
condition which is minimal in the `(arrival, departure)` sort order among
all such bookings (the first one in sorted order). -/
theorem next_arrival_spec (bookings : List Booking) (B : Booking)
    (hN : (bookings.map (·.id)).Nodup) (hB : B ∈ bookings) :
    (nextMapGet bookings B.id = noneInfo ∧
      ∀ nb ∈ aptGroup bookings B.apartment_id, nextPred B nb = false) ∨
    (∃ nb, nb ∈ aptGroup bookings B.apartment_id ∧ nextPred B nb = true ∧
      nextMapGet bookings B.id =
        ⟨some nb.arrival, nb.adults, nb.children, some nb.guest_comments,
          some nb.guest_name⟩ ∧
      ∀ nb' ∈ aptGroup bookings B.apartment_id, nextPred B nb' = true →
        keyLeB nb nb' = true) := by
  rw [nextMapGet_eq bookings hN B hB]
  unfold nextInfoFor
  cases hf : (sortedGroup bookings B.apartment_id).find? (nextPred B) with
  | none =>
    left
    refine ⟨rfl, ?_⟩
    intro nb hnb
    have hnb' : nb ∈ sortedGroup bookings B.apartment_id :=
      (insertionSortB_perm keyLeB _).mem_iff.mpr hnb
    have := List.find?_eq_none.mp hf nb hnb'
    simpa using this
  | some nb =>
    right
    refine ⟨nb, ?_, List.find?_some hf, rfl, ?_⟩
    · exact (insertionSortB_perm keyLeB _).mem_iff.mp (List.mem_of_find?_eq_some hf)
    · intro nb' hnb' hp
      have hs : (sortedGroup bookings B.apartment_id).Pairwise
          (fun a b => keyLeB a b = true) :=
        insertionSortB_pairwise keyLeB keyLeB_total (fun a b c => keyLeB_trans) _
      exact find?_min_of_pairwise keyLeB (nextPred B) keyLeB_refl _ hs nb hf nb'
        ((insertionSortB_perm keyLeB _).mem_iff.mpr hnb') hp

/-- Witness for C6 at the spec's example: two bookings in apartment 7, the
first departing 2024-01-05 and the second arriving 2024-01-05; the first
booking's next-arrival date is 2024-01-05. -/
theorem next_arrival_spec_witness :
    ((nextMapGet [exBooking1, exBooking2] exBooking1.id = noneInfo ∧
      ∀ nb ∈ aptGroup [exBooking1, exBooking2] exBooking1.apartment_id,
        nextPred exBooking1 nb = false) ∨
    (∃ nb, nb ∈ aptGroup [exBooking1, exBooking2] exBooking1.apartment_id ∧
      nextPred exBooking1 nb = true ∧
      nextMapGet [exBooking1, exBooking2] exBooking1.id =
        ⟨some nb.arrival, nb.adults, nb.children, some nb.guest_comments,
          some nb.guest_name⟩ ∧
      ∀ nb' ∈ aptGroup [exBooking1, exBooking2] exBooking1.apartment_id,
        nextPred exBooking1 nb' = true → keyLeB nb nb' = true)) ∧
    (nextMapGet [exBooking1, exBooking2] exBooking1.id).arrival = some "2024-01-05" ∧
    exBooking1.departure = "2024-01-05" :=
  ⟨next_arrival_spec [exBooking1, exBooking2] exBooking1 (by decide) (by decide),
    by decide, rfl⟩

/-! ## Survival of upserted rows through the cleanup passes -/

theorem find_by_id_eq (table : List Booking) (hN : (table.map (·.id)).Nodup)
    (B : Booking) (hB : B ∈ table) :
    table.find? (fun b => b.id == B.id) = some B := by
  cases hf : table.find? (fun b => b.id == B.id) with
  | none =>
    exact absurd (by simp : (B.id == B.id) = true) (List.find?_eq_none.mp hf B hB)
  | some b' =>
    have hmem : b' ∈ table := List.mem_of_find?_eq_some hf
    have hid : b'.id = B.id := by simpa using List.find?_some hf
    rw [List.inj_on_of_nodup_map hN hmem hB hid]

theorem keep_of_good (table : List Booking) (ids : List Int) (B : Booking)
    (hacc : acceptB B = true)
    (hfind : table.find? (fun b => b.id == B.id) = some B)
    (hin : B.id ∈ ids) (u : Task)
    (hdate : u.date = B.departure) (hbid : u.booking_id = some B.id) :
    delete1 table u = false ∧ delete2 table ids u = false := by
  obtain ⟨hl, hh, h2020, hord, hdb, hab⟩ := acceptB_props B hacc
  have hcont : ids.contains B.id = true := by simpa using hin
  constructor
  · unfold delete1
    rw [hdate, hbid]
    simp [hfind, hdb, hab, hl, hh, h2020]
  · unfold delete2
    rw [hbid]
    by_cases hauto : u.auto_generated
    · simp [hauto, hfind, hdb, hab, hl, hh, hord]
      exact fun _ => hin
    · simp [hauto]

/-! ## Claim C4 -/

/-- C4: when a task with `booking_id = B.id` already exists (at the slot the
upsert dictionary designates), the reconciler replaces it by `updateTask B`
of it, which survives both cleanup passes; the update changes only the
date, apartment reference, provenance flag, booking hash, and the
next-arrival cache fields, and leaves `planned_minutes`,
`assigned_staff_id`, `assignment_status`, `notes`, lifecycle `status`, and
every other field exactly as they were. -/
theorem human_fields_preserved (input : List Booking) (st : DBState) (h0 : input ≠ [])
    (B : Booking) (hBin : B ∈ input) (hacc : acceptB B = true)
    (hNc : ((input.filter acceptB).map (·.id)).Nodup)
    (hNt : (st.bookings.map (·.id)).Nodup) (hBt : B ∈ st.bookings)
    (j : Nat) (t0 : Task) (hj : lastIdxWith st.tasks B.id = some j)
    (ht0 : st.tasks.get? j = some t0) :
    ∃ t1, t1 ∈ (upsertTasksFromBookings input st).tasks ∧
      t1 = updateTask B (nextMapGet (input.filter acceptB) B.id) t0 ∧
      t1.planned_minutes = t0.planned_minutes ∧
      t1.assigned_staff_id = t0.assigned_staff_id ∧
      t1.assignment_status = t0.assignment_status ∧
      t1.notes = t0.notes ∧ t1.status = t0.status ∧
      t1.start_time = t0.start_time ∧ t1.extras_json = t0.extras_json ∧
      t1.assign_notified_at = t0.assign_notified_at ∧
      t1.booking_id = t0.booking_id ∧ t1.series_id = t0.series_id ∧
      t1.is_recurring = t0.is_recurring ∧ t1.id = t0.id ∧
      t1.date = B.departure ∧ t1.apartment_id = B.apartment_id ∧
      t1.auto_generated = true ∧
      t1.booking_hash = some (computeBookingHash B) := by
  have hBc : B ∈ input.filter acceptB := List.mem_filter.mpr ⟨hBin, hacc⟩
  have ht0bid : t0.booking_id = some B.id := by
    obtain ⟨t, hget, hb⟩ := lastIdxWith_get? st.tasks B.id j hj
    rw [ht0] at hget
    cases hget
    exact hb
  have hslot := foldl_fst_designated st.tasks (nextMapGet (input.filter acceptB))
    st.apartments (input.filter acceptB) (st.tasks, []) j B hNc hBc hj
  rw [ht0] at hslot
  set u := updateTask B (nextMapGet (input.filter acceptB) B.id) t0 with hu
  have hum : u ∈ ((input.filter acceptB).foldl
      (upsertStep st.tasks (nextMapGet (input.filter acceptB)) st.apartments)
      (st.tasks, [])).1 := by
    have : (((input.filter acceptB).foldl
        (upsertStep st.tasks (nextMapGet (input.filter acceptB)) st.apartments)
        (st.tasks, [])).1).get? j = some u := hslot
    exact List.get?_mem this
  have hkeep := keep_of_good st.bookings ((input.filter acceptB).map (·.id)) B hacc
    (find_by_id_eq st.bookings hNt B hBt)
    (List.mem_map_of_mem (·.id) hBc) u rfl (by rw [hu]; simpa [updateTask] using ht0bid)
  refine ⟨u, ?_, rfl, ?_, ?_, ?_, ?_, ?_, ?_, ?_, ?_, ?_, ?_, ?_, ?_, rfl, rfl, rfl, rfl⟩
  · rw [upsert_tasks_eq input st h0]
    apply List.mem_append_left
    exact List.mem_filter.mpr
      ⟨List.mem_filter.mpr ⟨hum, by rw [hkeep.1]; rfl⟩, by rw [hkeep.2]; rfl⟩
  all_goals rfl

set_option maxRecDepth 3000 in
/-- Witness for C4: the existing task with `planned_minutes = 120` and
`status = "done"` keeps both after a reconcile with its unchanged booking. -/
theorem human_fields_preserved_witness :
    exTaskDone.planned_minutes = 120 ∧ exTaskDone.status = "done" ∧
    (∃ t1, t1 ∈ (upsertTasksFromBookings [exBooking1, exBooking2] exStateDone).tasks ∧
      t1 = updateTask exBooking1
        (nextMapGet ([exBooking1, exBooking2].filter acceptB) exBooking1.id) exTaskDone ∧
      t1.planned_minutes = exTaskDone.planned_minutes ∧
      t1.assigned_staff_id = exTaskDone.assigned_staff_id ∧
      t1.assignment_status = exTaskDone.assignment_status ∧
      t1.notes = exTaskDone.notes ∧ t1.status = exTaskDone.status ∧
      t1.start_time = exTaskDone.start_time ∧ t1.extras_json = exTaskDone.extras_json ∧
      t1.assign_notified_at = exTaskDone.assign_notified_at ∧
      t1.booking_id = exTaskDone.booking_id ∧ t1.series_id = exTaskDone.series_id ∧
      t1.is_recurring = exTaskDone.is_recurring ∧ t1.id = exTaskDone.id ∧
      t1.date = exBooking1.departure ∧ t1.apartment_id = exBooking1.apartment_id ∧
      t1.auto_generated = true ∧
      t1.booking_hash = some (computeBookingHash exBooking1)) :=
  ⟨rfl, rfl,
    human_fields_preserved [exBooking1, exBooking2] exStateDone (by decide) exBooking1
      (by decide) (by decide) (by decide) (by decide) (by decide) 0 exTaskDone
      (by decide) (by decide)⟩

/-! ## Occurrence counts of booking references -/

theorem updateTask_booking_id (b : Booking) (ni : NextInfo) (t : Task) :
    (updateTask b ni t).booking_id = t.booking_id := rfl

theorem updateTask_idem (b : Booking) (ni : NextInfo) (t : Task) :
    updateTask b ni (updateTask b ni t) = updateTask b ni t := rfl

theorem updateTask_newTask (b : Booking) (ni : NextInfo) (pm : Int) :
    updateTask b ni (newTask b ni pm) = newTask b ni pm := rfl

theorem map_booking_id_modifyIdx (b : Booking) (ni : NextInfo) :
    ∀ (j : Nat) (l : List Task),
      (modifyIdx (updateTask b ni) j l).map (·.booking_id) = l.map (·.booking_id)
  | _, [] => by simp [modifyIdx]
  | 0, x :: xs => by simp [modifyIdx, updateTask_booking_id]
  | n + 1, x :: xs => by
    simp [modifyIdx, map_booking_id_modifyIdx b ni n xs]

theorem foldl_fst_map_bid (ts0 : List Task) (nmap : Int → NextInfo) (apts : List Apartment) :
    ∀ (cs : List Booking) (acc : List Task × List Task),
      ((cs.foldl (upsertStep ts0 nmap apts) acc).1).map (·.booking_id) =
        acc.1.map (·.booking_id)
  | [], _ => rfl
  | c :: cs, acc => by
    rw [List.foldl_cons, foldl_fst_map_bid ts0 nmap apts cs]
    unfold upsertStep
    cases hL : lastIdxWith ts0 c.id with
    | some j => simp [map_booking_id_modifyIdx]
    | none => rfl

theorem countP_bid_eq_of_map_eq :
    ∀ (l1 l2 : List Task),
      l1.map (·.booking_id) = l2.map (·.booking_id) → ∀ bid : Int,
      l1.countP (fun t => t.booking_id == some bid) =
        l2.countP (fun t => t.booking_id == some bid)
  | [], [], _, _ => rfl
  | [], _ :: _, h, _ => by simp at h
  | _ :: _, [], h, _ => by simp at h
  | t1 :: l1, t2 :: l2, h, bid => by
    simp only [List.map_cons, List.cons.injEq] at h
    simp only [List.countP_cons, h.1, countP_bid_eq_of_map_eq l1 l2 h.2 bid]

theorem countP_bid_map (g : Booking → Task) (hg : ∀ b, (g b).booking_id = some b.id) :
    ∀ (cs : List Booking) (bid : Int),
      (cs.map g).countP (fun t => t.booking_id == some bid) =
        cs.countP (fun b => b.id == bid)
  | [], _ => rfl
  | c :: cs, bid => by
    simp [List.countP_cons, hg c, countP_bid_map g hg cs bid, beq_iff_eq]

theorem countP_id_le_one :
    ∀ (cs : List Booking), ((cs.map (·.id)).Nodup) → ∀ bid : Int,
      cs.countP (fun b => b.id == bid) ≤ 1
  | [], _, _ => by simp
  | c :: cs, hN, bid => by
    rw [List.map_cons, List.nodup_cons] at hN
    rw [List.countP_cons]
    by_cases hc : c.id = bid
    · have h0 : cs.countP (fun b => b.id == bid) = 0 := by
        rw [List.countP_eq_zero]
        intro b hb hbid
        have hbid' : b.id = bid := by simpa using hbid
        have : c.id ∈ cs.map (·.id) := by
          rw [hc, ← hbid']
          exact List.mem_map_of_mem (·.id) hb
        exact hN.1 this
      simp [h0, hc]
    · have hfalse : (c.id == bid) = false := by simpa using hc
      simpa [hfalse] using countP_id_le_one cs hN.2 bid

theorem countP_filter_le (p q : α → Bool) : ∀ (l : List α),
    (l.filter q).countP p ≤ l.countP p
  | [] => Nat.le_refl 0
  | a :: l => by
    rw [List.filter_cons]
    by_cases hq : q a = true
    · rw [if_pos hq, List.countP_cons, List.countP_cons]
      exact Nat.add_le_add_right (countP_filter_le p q l) _
    · rw [if_neg hq, List.countP_cons]
      exact Nat.le_trans (countP_filter_le p q l) (Nat.le_add_right _ _)

theorem countP_le_one_of_filterMap_nodup :
    ∀ (ts : List Task), ((ts.filterMap (·.booking_id)).Nodup) → ∀ bid : Int,
      ts.countP (fun t => t.booking_id == some bid) ≤ 1
  | [], _, _ => by simp
  | t :: ts, hN, bid => by
    cases hb : t.booking_id with
    | none =>
      simp only [List.filterMap_cons, hb] at hN
      simp only [List.countP_cons, hb]
      simpa using countP_le_one_of_filterMap_nodup ts hN bid
    | some v =>
      simp only [List.filterMap_cons, hb] at hN
      rw [List.nodup_cons] at hN
      simp only [List.countP_cons, hb]
      by_cases hv : v = bid
      · have h0 : ts.countP (fun t => t.booking_id == some bid) = 0 := by
          rw [List.countP_eq_zero]
          intro t' ht' hp
          have hp' : t'.booking_id = some bid := by simpa using hp
          apply hN.1
          rw [hv]
          exact List.mem_filterMap.mpr ⟨t', ht', hp'⟩
        simp [h0, hv]
      · have hfalse : (some v == some bid) = false := by simpa using hv
        simpa [hfalse] using countP_le_one_of_filterMap_nodup ts hN.2 bid

theorem filter_len_one_unique (p : α → Bool) (l : List α)
    (h : (l.filter p).length = 1) (x y : α) (hx : x ∈ l) (hpx : p x = true)
    (hy : y ∈ l) (hpy : p y = true) : x = y := by
  obtain ⟨z, hz⟩ := List.length_eq_one.mp h
  have hxz : x ∈ l.filter p := List.mem_filter.mpr ⟨hx, hpx⟩
  have hyz : y ∈ l.filter p := List.mem_filter.mpr ⟨hy, hpy⟩
  rw [hz, List.mem_singleton] at hxz hyz
  rw [hxz, hyz]

theorem dbState_ext (a b : DBState) (h1 : a.tasks = b.tasks) (h2 : a.bookings = b.bookings)
    (h3 : a.apartments = b.apartments) (h4 : a.series = b.series) : a = b := by
  cases a
  cases b
  congr 1

/-! ## The reconciler leaves exactly one task per accepted booking -/

theorem upsert_survivor (input : List Booking) (st : DBState) (h0 : input ≠ [])
    (hT : st.bookings = input) (hNin : (input.map (·.id)).Nodup)
    (b : Booking) (hb : b ∈ input.filter acceptB) :
    ∃ u, u ∈ (upsertTasksFromBookings input st).tasks ∧
      u.booking_id = some b.id ∧
      updateTask b (nextMapGet (input.filter acceptB) b.id) u = u := by
  have hbin : b ∈ input := (List.mem_filter.mp hb).1
  have hacc : acceptB b = true := (List.mem_filter.mp hb).2
  have hNc : ((input.filter acceptB).map (·.id)).Nodup :=
    ((List.filter_sublist input).map (·.id)).nodup hNin
  have hbT : b ∈ st.bookings := hT ▸ hbin
  have hNT : (st.bookings.map (·.id)).Nodup := by rw [hT]; exact hNin
  have hfind := find_by_id_eq st.bookings hNT b hbT
  have hin : b.id ∈ (input.filter acceptB).map (·.id) := List.mem_map_of_mem (·.id) hb
  rw [upsert_tasks_eq input st h0]
  cases hL : lastIdxWith st.tasks b.id with
  | some j =>
    obtain ⟨t0, hget, hbid0⟩ := lastIdxWith_get? st.tasks b.id j hL
    have hslot := foldl_fst_designated st.tasks (nextMapGet (input.filter acceptB))
      st.apartments (input.filter acceptB) (st.tasks, []) j b hNc hb hL
    rw [hget] at hslot
    refine ⟨updateTask b (nextMapGet (input.filter acceptB) b.id) t0, ?_, hbid0,
      updateTask_idem _ _ _⟩
    have hum : updateTask b (nextMapGet (input.filter acceptB) b.id) t0 ∈
        (((input.filter acceptB).foldl
          (upsertStep st.tasks (nextMapGet (input.filter acceptB)) st.apartments)
          (st.tasks, [])).1) := List.get?_mem hslot
    have hkeep := keep_of_good st.bookings ((input.filter acceptB).map (·.id)) b hacc
      hfind hin (updateTask b (nextMapGet (input.filter acceptB) b.id) t0) rfl hbid0
    apply List.mem_append_left
    exact List.mem_filter.mpr ⟨List.mem_filter.mpr ⟨hum, by rw [hkeep.1]; rfl⟩,
      by rw [hkeep.2]; rfl⟩
  | none =>
    refine ⟨newTask b (nextMapGet (input.filter acceptB) b.id)
      (getPlannedMinutesFor st.apartments b.apartment_id), ?_, rfl,
      updateTask_newTask _ _ _⟩
    apply List.mem_append_right
    rw [foldl_news_eq]
    simp only [List.nil_append]
    apply List.mem_map_of_mem
    exact List.mem_filter.mpr ⟨hb, by rw [hL]; rfl⟩

theorem upsert_countP_decomp (input : List Booking) (st : DBState) (h0 : input ≠ [])
    (bid : Int) :
    (upsertTasksFromBookings input st).tasks.countP (fun t => t.booking_id == some bid) ≤
      st.tasks.countP (fun t => t.booking_id == some bid) +
      ((input.filter acceptB).filter
        (fun b => (lastIdxWith st.tasks b.id).isNone)).countP (fun b => b.id == bid) := by
  rw [upsert_tasks_eq input st h0, List.countP_append]
  have hfold := countP_bid_eq_of_map_eq _ st.tasks
    (foldl_fst_map_bid st.tasks (nextMapGet (input.filter acceptB)) st.apartments
      (input.filter acceptB) (st.tasks, [])) bid
  have hnews : (((input.filter acceptB).foldl
      (upsertStep st.tasks (nextMapGet (input.filter acceptB)) st.apartments)
      (st.tasks, [])).2).countP (fun t => t.booking_id == some bid) =
      ((input.filter acceptB).filter
        (fun b => (lastIdxWith st.tasks b.id).isNone)).countP (fun b => b.id == bid) := by
    rw [foldl_news_eq]
    simp only [List.nil_append]
    exact countP_bid_map _ (fun b => rfl) _ bid
  have hcl := Nat.le_trans
    (countP_filter_le (fun t => t.booking_id == some bid)
      (fun t => !delete2 st.bookings ((input.filter acceptB).map (·.id)) t)
      ((((input.filter acceptB).foldl
        (upsertStep st.tasks (nextMapGet (input.filter acceptB)) st.apartments)
        (st.tasks, [])).1).filter (fun t => !delete1 st.bookings t)))
    (countP_filter_le (fun t => t.booking_id == some bid)
      (fun t => !delete1 st.bookings t)
      (((input.filter acceptB).foldl
        (upsertStep st.tasks (nextMapGet (input.filter acceptB)) st.apartments)
        (st.tasks, [])).1))
  rw [hnews]
  omega

theorem upsert_countP_le_one (input : List Booking) (st : DBState) (h0 : input ≠ [])
    (hNin : (input.map (·.id)).Nodup)
    (hNt : (st.tasks.filterMap (·.booking_id)).Nodup) (bid : Int) :
    (upsertTasksFromBookings input st).tasks.countP
      (fun t => t.booking_id == some bid) ≤ 1 := by
  have hNc : ((input.filter acceptB).map (·.id)).Nodup :=
    ((List.filter_sublist input).map (·.id)).nodup hNin
  have hdec := upsert_countP_decomp input st h0 bid
  cases hL : lastIdxWith st.tasks bid with
  | some j =>
    have hnews0 : ((input.filter acceptB).filter
        (fun b => (lastIdxWith st.tasks b.id).isNone)).countP (fun b => b.id == bid) = 0 := by
      rw [List.countP_eq_zero]
      intro b' hb' hp
      have hid : b'.id = bid := by simpa using hp
      have hisN := (List.mem_filter.mp hb').2
      rw [hid, hL] at hisN
      simp at hisN
    have hts0 := countP_le_one_of_filterMap_nodup st.tasks hNt bid
    omega
  | none =>
    have hts0 : st.tasks.countP (fun t => t.booking_id == some bid) = 0 := by
      rw [List.countP_eq_zero]
      intro t ht hp
      obtain ⟨j, hj⟩ := lastIdxWith_isSome_of_mem st.tasks bid t ht (by simpa using hp)
      rw [hL] at hj
      cases hj
    have hnews_le : ((input.filter acceptB).filter
        (fun b => (lastIdxWith st.tasks b.id).isNone)).countP (fun b => b.id == bid) ≤ 1 :=
      Nat.le_trans (countP_filter_le _ _ _) (countP_id_le_one (input.filter acceptB) hNc bid)
    omega

theorem upsert_countP_eq_one (input : List Booking) (st : DBState) (h0 : input ≠ [])
    (hT : st.bookings = input) (hNin : (input.map (·.id)).Nodup)
    (hNt : (st.tasks.filterMap (·.booking_id)).Nodup)
    (b : Booking) (hb : b ∈ input.filter acceptB) :
    (upsertTasksFromBookings input st).tasks.countP
      (fun t => t.booking_id == some b.id) = 1 := by
  obtain ⟨u, hu, hub, _⟩ := upsert_survivor input st h0 hT hNin b hb
  have hpos : 0 < (upsertTasksFromBookings input st).tasks.countP
      (fun t => t.booking_id == some b.id) :=
    List.countP_pos_iff.mpr ⟨u, hu, by simp [hub]⟩
  have hle := upsert_countP_le_one input st h0 hNin hNt b.id
  omega

theorem upsert_unique_task (input : List Booking) (st : DBState) (h0 : input ≠ [])
    (hT : st.bookings = input) (hNin : (input.map (·.id)).Nodup)
    (hNt : (st.tasks.filterMap (·.booking_id)).Nodup)
    (b : Booking) (hb : b ∈ input.filter acceptB) (t : Task)
    (ht : t ∈ (upsertTasksFromBookings input st).tasks)
    (htb : t.booking_id = some b.id) :
    updateTask b (nextMapGet (input.filter acceptB) b.id) t = t := by
  obtain ⟨u, hu, hub, hstable⟩ := upsert_survivor input st h0 hT hNin b hb
  have hcnt := upsert_countP_eq_one input st h0 hT hNin hNt b hb
  have hlen : ((upsertTasksFromBookings input st).tasks.filter
      (fun t => t.booking_id == some b.id)).length = 1 := by
    rw [← List.countP_eq_length_filter]
    exact hcnt
  have heq := filter_len_one_unique _ _ hlen t u ht (by simp [htb]) hu (by simp [hub])
  rw [heq]
  exact hstable

theorem upsert_all_kept (input : List Booking) (st : DBState) (h0 : input ≠ [])
    (hT : st.bookings = input) (hNin : (input.map (·.id)).Nodup)
    (t : Task) (ht : t ∈ (upsertTasksFromBookings input st).tasks) :
    delete1 st.bookings t = false ∧
    delete2 st.bookings ((input.filter acceptB).map (·.id)) t = false := by
  rw [upsert_tasks_eq input st h0] at ht
  rcases List.mem_append.mp ht with hcl | hnews
  · have h2 := (List.mem_filter.mp hcl).2
    have h1 := (List.mem_filter.mp (List.mem_filter.mp hcl).1).2
    exact ⟨by simpa using h1, by simpa using h2⟩
  · rw [foldl_news_eq] at hnews
    simp only [List.nil_append] at hnews
    obtain ⟨b', hb', hteq⟩ := List.mem_map.mp hnews
    have hb'c : b' ∈ input.filter acceptB := (List.mem_filter.mp hb').1
    have hacc : acceptB b' = true := (List.mem_filter.mp hb'c).2
    have hbin : b' ∈ input := (List.mem_filter.mp hb'c).1
    have hNT : (st.bookings.map (·.id)).Nodup := by rw [hT]; exact hNin
    have hfind := find_by_id_eq st.bookings hNT b' (hT ▸ hbin)
    have hin : b'.id ∈ (input.filter acceptB).map (·.id) :=
      List.mem_map_of_mem (·.id) hb'c
    exact keep_of_good st.bookings ((input.filter acceptB).map (·.id)) b' hacc hfind hin t
      (by rw [← hteq]; rfl) (by rw [← hteq]; rfl)

theorem foldl_fst_id (ts1 : List Task) (nmap : Int → NextInfo) (apts : List Apartment) :
    ∀ (cs : List Booking) (acc : List Task × List Task), acc.1 = ts1 →
      (∀ b ∈ cs, ∀ (j : Nat) (t : Task), lastIdxWith ts1 b.id = some j →
        ts1.get? j = some t → updateTask b (nmap b.id) t = t) →
      (cs.foldl (upsertStep ts1 nmap apts) acc).1 = ts1
  | [], _, hacc, _ => hacc
  | c :: cs, acc, hacc, h => by
    rw [List.foldl_cons]
    apply foldl_fst_id ts1 nmap apts cs _ ?_ (fun b hb => h b (List.mem_cons_of_mem _ hb))
    unfold upsertStep
    cases hL : lastIdxWith ts1 c.id with
    | some j =>
      simp only [hL]
      obtain ⟨t, hget, hbid⟩ := lastIdxWith_get? ts1 c.id j hL
      show modifyIdx (updateTask c (nmap c.id)) j acc.1 = ts1
      rw [hacc]
      exact modifyIdx_eq_self _ j ts1 t hget (h c (List.mem_cons_self _ _) j t hL hget)
    | none =>
      simp only [hL]
      exact hacc

/-! ## Claim C5 -/

/-- C5: reconciliation is idempotent and enforces upsert uniqueness.  For a
non-empty input whose rows are the cached Booking table (as when the refresh
job invokes the reconciler), with distinct booking ids and at most one
existing task per booking id, running `upsert_tasks_from_bookings` a second
time with the identical input returns the state unchanged, and after one run
exactly one task references each accepted booking id. -/
theorem reconcile_idempotent (input : List Booking) (st : DBState) (h0 : input ≠ [])
    (hT : st.bookings = input) (hNin : (input.map (·.id)).Nodup)
    (hNt : (st.tasks.filterMap (·.booking_id)).Nodup) :
    upsertTasksFromBookings input (upsertTasksFromBookings input st) =
      upsertTasksFromBookings input st ∧
    ∀ b ∈ input.filter acceptB,
      (upsertTasksFromBookings input st).tasks.countP
        (fun t => t.booking_id == some b.id) = 1 := by
  refine ⟨?_, fun b hb => upsert_countP_eq_one input st h0 hT hNin hNt b hb⟩
  apply dbState_ext
  · rw [upsert_tasks_eq input (upsertTasksFromBookings input st) h0,
      upsert_bookings_eq input st, upsert_apartments_eq input st]
    have hnil : (input.filter acceptB).filter
        (fun b => (lastIdxWith (upsertTasksFromBookings input st).tasks b.id).isNone) = [] := by
      rw [List.filter_eq_nil_iff]
      intro b hb
      obtain ⟨u, hu, hub, _⟩ := upsert_survivor input st h0 hT hNin b hb
      obtain ⟨j, hj⟩ := lastIdxWith_isSome_of_mem _ b.id u hu hub
      simp [hj]
    have hnews2 : ((input.filter acceptB).foldl
        (upsertStep (upsertTasksFromBookings input st).tasks
          (nextMapGet (input.filter acceptB)) st.apartments)
        ((upsertTasksFromBookings input st).tasks, [])).2 = [] := by
      rw [foldl_news_eq]
      simp only [List.nil_append]
      rw [hnil, List.map_nil]
    have hfst2 : ((input.filter acceptB).foldl
        (upsertStep (upsertTasksFromBookings input st).tasks
          (nextMapGet (input.filter acceptB)) st.apartments)
        ((upsertTasksFromBookings input st).tasks, [])).1 =
        (upsertTasksFromBookings input st).tasks := by
      apply foldl_fst_id (upsertTasksFromBookings input st).tasks
        (nextMapGet (input.filter acceptB)) st.apartments (input.filter acceptB) _ rfl
      intro b hbc j t hj hget
      obtain ⟨t', hget', htb'⟩ :=
        lastIdxWith_get? (upsertTasksFromBookings input st).tasks b.id j hj
      rw [hget] at hget'
      injection hget' with he
      rw [← he] at htb'
      exact upsert_unique_task input st h0 hT hNin hNt b hbc t (List.get?_mem hget) htb'
    have hq1 : (upsertTasksFromBookings input st).tasks.filter
        (fun t => !delete1 st.bookings t) = (upsertTasksFromBookings input st).tasks :=
      List.filter_eq_self.mpr (fun t ht => by
        simp [(upsert_all_kept input st h0 hT hNin t ht).1])
    have hq2 : (upsertTasksFromBookings input st).tasks.filter
        (fun t => !delete2 st.bookings ((input.filter acceptB).map (·.id)) t) =
        (upsertTasksFromBookings input st).tasks :=
      List.filter_eq_self.mpr (fun t ht => by
        simp [(upsert_all_kept input st h0 hT hNin t ht).2])
    rw [hnews2, hfst2, hq1, hq2, List.append_nil]
  · rw [upsert_bookings_eq]
  · rw [upsert_apartments_eq]
  · rw [upsert_series_eq]

set_option maxRecDepth 3000 in
/-- Witness for C5: the two-booking example state is reconciled once and a
second run returns it unchanged, with exactly one task per accepted
booking. -/
theorem reconcile_idempotent_witness :
    ([exBooking1, exBooking2] : List Booking) ≠ [] ∧
    exStateDone.bookings = [exBooking1, exBooking2] ∧
    (([exBooking1, exBooking2].map (·.id)).Nodup) ∧
    ((exStateDone.tasks.filterMap (·.booking_id)).Nodup) ∧
    (upsertTasksFromBookings [exBooking1, exBooking2]
        (upsertTasksFromBookings [exBooking1, exBooking2] exStateDone) =
      upsertTasksFromBookings [exBooking1, exBooking2] exStateDone ∧
     ∀ b ∈ [exBooking1, exBooking2].filter acceptB,
       (upsertTasksFromBookings [exBooking1, exBooking2] exStateDone).tasks.countP
         (fun t => t.booking_id == some b.id) = 1) :=
  ⟨by decide, by decide, by decide, by decide,
    reconcile_idempotent [exBooking1, exBooking2] exStateDone (by decide) (by decide)
      (by decide) (by decide)⟩

/-! ## Calendar arithmetic: `toordinal` is the order embedding of valid dates -/

theorem dim_pos (y m : Nat) : 1 ≤ daysInMonth y m := by
  unfold daysInMonth
  split
  · split <;> omega
  all_goals omega

theorem dbm_succ (y : Nat) : ∀ (m : Nat), 1 ≤ m →
    daysBeforeMonth y (m + 1) = daysBeforeMonth y m + daysInMonth y m
  | 0, h => absurd h (by omega)
  | _ + 1, _ => rfl

theorem dbm_le_succ (y : Nat) : ∀ (m : Nat),
    daysBeforeMonth y m ≤ daysBeforeMonth y (m + 1)
  | 0 => by simp [daysBeforeMonth]
  | m + 1 => by
    rw [dbm_succ y (m + 1) (by omega)]
    omega

theorem dbm_mono (y : Nat) : ∀ (k m : Nat),
    daysBeforeMonth y m ≤ daysBeforeMonth y (m + k)
  | 0, _ => Nat.le_refl _
  | k + 1, m => Nat.le_trans (dbm_mono y k m) (dbm_le_succ y (m + k))

theorem dbm_13 (y : Nat) : daysBeforeMonth y 13 = if isLeap y then 366 else 365 := by
  cases hL : isLeap y <;> simp [daysBeforeMonth, daysInMonth, hL]

set_option maxHeartbeats 1000000 in
theorem dby_succ (y : Nat) (hy : 1 ≤ y) :
    daysBeforeYear (y + 1) = daysBeforeYear y + (if isLeap y then 366 else 365) := by
  unfold daysBeforeYear isLeap
  by_cases h4 : y % 4 = 0 <;> by_cases h100 : y % 100 = 0 <;> by_cases h400 : y % 400 = 0 <;>
    simp [h4, h100, h400] <;> omega

theorem dby_mono : ∀ (k y : Nat), 1 ≤ y → daysBeforeYear y ≤ daysBeforeYear (y + k)
  | 0, _, _ => Nat.le_refl _
  | k + 1, y, hy => by
    have h1 := dby_mono k y hy
    have h2 := dby_succ (y + k) (by omega)
    rw [show y + (k + 1) = y + k + 1 from rfl]
    cases hL : isLeap (y + k) <;> simp [hL] at h2 <;> omega

theorem toordinal_le_year_end (dt : Date) (h : dt.Valid) :
    toordinal dt ≤ daysBeforeYear (dt.y + 1) := by
  obtain ⟨hy, hm1, hm2, hd1, hd2⟩ := h
  have h1 : daysBeforeMonth dt.y dt.m + dt.d ≤ daysBeforeMonth dt.y (dt.m + 1) := by
    rw [dbm_succ dt.y dt.m hm1]
    omega
  have h2 : daysBeforeMonth dt.y (dt.m + 1) ≤ daysBeforeMonth dt.y 13 := by
    have := dbm_mono dt.y (13 - (dt.m + 1)) (dt.m + 1)
    have heq : dt.m + 1 + (13 - (dt.m + 1)) = 13 := by omega
    rw [heq] at this
    exact this
  have h3 := dbm_13 dt.y
  have h4 := dby_succ dt.y hy
  unfold toordinal
  cases hL : isLeap dt.y <;> simp [hL] at h3 h4 <;> omega

theorem dateLtB_eq_true_iff (a b : Date) :
    dateLtB a b = true ↔
      (a.y < b.y ∨ (a.y = b.y ∧ (a.m < b.m ∨ (a.m = b.m ∧ a.d < b.d)))) := by
  unfold dateLtB
  simp [Bool.or_eq_true, Bool.and_eq_true, beq_iff_eq, decide_eq_true_eq]

theorem toordinal_lt_of_dateLtB (a b : Date) (ha : a.Valid) (hb : b.Valid)
    (h : dateLtB a b = true) : toordinal a < toordinal b := by
  obtain ⟨hay, ham1, ham2, had1, had2⟩ := ha
  obtain ⟨hby, hbm1, hbm2, hbd1, hbd2⟩ := hb
  rw [dateLtB_eq_true_iff] at h
  rcases h with hy | ⟨hy, hm | ⟨hm, hd⟩⟩
  · have h1 : toordinal a ≤ daysBeforeYear (a.y + 1) :=
      toordinal_le_year_end a ⟨hay, ham1, ham2, had1, had2⟩
    have h2 : daysBeforeYear (a.y + 1) ≤ daysBeforeYear b.y := by
      have := dby_mono (b.y - (a.y + 1)) (a.y + 1) (by omega)
      have heq : a.y + 1 + (b.y - (a.y + 1)) = b.y := by omega
      rw [heq] at this
      exact this
    unfold toordinal at h1 ⊢
    omega
  · have h1 : daysBeforeMonth a.y a.m + a.d ≤ daysBeforeMonth a.y (a.m + 1) := by
      rw [dbm_succ a.y a.m ham1]
      omega
    have h2 : daysBeforeMonth a.y (a.m + 1) ≤ daysBeforeMonth a.y b.m := by
      have := dbm_mono a.y (b.m - (a.m + 1)) (a.m + 1)
      have heq : a.m + 1 + (b.m - (a.m + 1)) = b.m := by omega
      rw [heq] at this
      exact this
    unfold toordinal
    rw [hy] at h1 h2 ⊢
    omega
  · unfold toordinal
    rw [hy, hm]
    omega

theorem dateLtB_trichotomy (a b : Date) :
    dateLtB a b = true ∨ dateLtB b a = true ∨ a = b := by
  obtain ⟨ay, am, ad⟩ := a
  obtain ⟨cy, cm, cd⟩ := b
  simp only [dateLtB_eq_true_iff, Date.mk.injEq]
  omega

theorem dateLtB_iff_ord (a b : Date) (ha : a.Valid) (hb : b.Valid) :
    dateLtB a b = true ↔ toordinal a < toordinal b := by
  constructor
  · exact toordinal_lt_of_dateLtB a b ha hb
  · intro h
    rcases dateLtB_trichotomy a b with h1 | h1 | h1
    · exact h1
    · exact absurd (toordinal_lt_of_dateLtB b a hb ha h1) (by omega)
    · rw [h1] at h
      omega

theorem dateLeB_refl (a : Date) : dateLeB a a = true := by
  simp [dateLeB]

theorem dateLeB_iff_ord (a b : Date) (ha : a.Valid) (hb : b.Valid) :
    dateLeB a b = true ↔ toordinal a ≤ toordinal b := by
  unfold dateLeB
  rw [Bool.or_eq_true, beq_iff_eq, dateLtB_iff_ord a b ha hb]
  constructor
  · rintro (h | h)
    · omega
    · rw [h]
  · intro h
    rcases Nat.lt_or_ge (toordinal a) (toordinal b) with h1 | h1
    · exact Or.inl h1
    · rcases dateLtB_trichotomy a b with h2 | h2 | h2
      · exact Or.inl ((dateLtB_iff_ord a b ha hb).mp h2)
      · exact absurd ((dateLtB_iff_ord b a hb ha).mp h2) (by omega)
      · exact Or.inr h2

theorem nextDate_valid (dt : Date) (h : dt.Valid) : (nextDate dt).Valid := by
  obtain ⟨hy, hm1, hm2, hd1, hd2⟩ := h
  unfold nextDate
  by_cases h1 : dt.d < daysInMonth dt.y dt.m
  · rw [if_pos h1]
    show 1 ≤ dt.y ∧ 1 ≤ dt.m ∧ dt.m ≤ 12 ∧ 1 ≤ dt.d + 1 ∧ dt.d + 1 ≤ daysInMonth dt.y dt.m
    exact ⟨hy, hm1, hm2, by omega, by omega⟩
  · rw [if_neg h1]
    by_cases h2 : dt.m < 12
    · rw [if_pos h2]
      show 1 ≤ dt.y ∧ 1 ≤ dt.m + 1 ∧ dt.m + 1 ≤ 12 ∧ 1 ≤ 1 ∧
        1 ≤ daysInMonth dt.y (dt.m + 1)
      exact ⟨hy, by omega, by omega, Nat.le_refl 1, dim_pos _ _⟩
    · rw [if_neg h2]
      show 1 ≤ dt.y + 1 ∧ 1 ≤ 1 ∧ 1 ≤ 12 ∧ 1 ≤ 1 ∧ 1 ≤ daysInMonth (dt.y + 1) 1
      exact ⟨by omega, Nat.le_refl 1, by omega, Nat.le_refl 1, dim_pos _ _⟩

theorem toordinal_nextDate (dt : Date) (h : dt.Valid) :
    toordinal (nextDate dt) = toordinal dt + 1 := by
  obtain ⟨hy, hm1, hm2, hd1, hd2⟩ := h
  unfold nextDate
  by_cases h1 : dt.d < daysInMonth dt.y dt.m
  · rw [if_pos h1]
    unfold toordinal
    dsimp only
    omega
  · have hde : dt.d = daysInMonth dt.y dt.m := by omega
    rw [if_neg h1]
    by_cases h2 : dt.m < 12
    · rw [if_pos h2]
      unfold toordinal
      dsimp only
      rw [dbm_succ dt.y dt.m hm1]
      omega
    · have hme : dt.m = 12 := by omega
      rw [if_neg h2]
      unfold toordinal
      dsimp only
      have hb1 : daysBeforeMonth (dt.y + 1) 1 = 0 := rfl
      have h13 := dbm_13 dt.y
      have h12 : daysBeforeMonth dt.y 13 = daysBeforeMonth dt.y 12 + daysInMonth dt.y 12 :=
        dbm_succ dt.y 12 (by omega)
      have hsucc := dby_succ dt.y hy
      rw [hme] at hde
      rw [hme]
      cases hL : isLeap dt.y <;> simp [hL] at h13 hsucc <;> omega

/-! ## `_daterange_iter` enumerates exactly the valid dates of the window -/

theorem mem_daterangeAux (fin : Date) (hfin : fin.Valid) :
    ∀ (fuel : Nat) (cur : Date), cur.Valid → toordinal fin + 1 - toordinal cur ≤ fuel →
      ∀ x : Date, x ∈ daterangeAux fuel cur fin ↔
        (x.Valid ∧ dateLeB cur x = true ∧ dateLeB x fin = true)
  | 0, cur, hcur, hfuel, x => by
    rw [daterangeAux]
    simp only [List.not_mem_nil, false_iff]
    rintro ⟨hxv, h1, h2⟩
    rw [dateLeB_iff_ord cur x hcur hxv] at h1
    rw [dateLeB_iff_ord x fin hxv hfin] at h2
    omega
  | fuel + 1, cur, hcur, hfuel, x => by
    rw [daterangeAux]
    by_cases hcf : dateLeB cur fin = true
    · rw [if_pos hcf, List.mem_cons]
      have hnv := nextDate_valid cur hcur
      have hno := toordinal_nextDate cur hcur
      rw [mem_daterangeAux fin hfin fuel (nextDate cur) hnv (by omega) x]
      constructor
      · rintro (rfl | ⟨hxv, h1, h2⟩)
        · exact ⟨hcur, dateLeB_refl _, hcf⟩
        · refine ⟨hxv, ?_, h2⟩
          rw [dateLeB_iff_ord (nextDate cur) x hnv hxv] at h1
          rw [dateLeB_iff_ord cur x hcur hxv]
          omega
      · rintro ⟨hxv, h1, h2⟩
        rcases dateLtB_trichotomy cur x with hlt | hlt | hlt
        · right
          refine ⟨hxv, ?_, h2⟩
          rw [dateLtB_iff_ord cur x hcur hxv] at hlt
          rw [dateLeB_iff_ord (nextDate cur) x hnv hxv, hno]
          omega
        · rw [dateLeB_iff_ord cur x hcur hxv] at h1
          rw [dateLtB_iff_ord x cur hxv hcur] at hlt
          exact absurd h1 (by omega)
        · exact Or.inl hlt.symm
    · rw [if_neg hcf]
      simp only [List.not_mem_nil, false_iff]
      rintro ⟨hxv, h1, h2⟩
      rw [dateLeB_iff_ord cur x hcur hxv] at h1
      rw [dateLeB_iff_ord x fin hxv hfin] at h2
      exact hcf (by rw [dateLeB_iff_ord cur fin hcur hfin]; omega)

theorem mem_daterange (start fin : Date) (hs : start.Valid) (hf : fin.Valid) (x : Date) :
    x ∈ daterange start fin ↔
      (x.Valid ∧ dateLeB start x = true ∧ dateLeB x fin = true) :=
  mem_daterangeAux fin hf _ start hs (Nat.le_refl _) x

theorem maxDate_valid {a b : Date} (ha : a.Valid) (hb : b.Valid) : (maxDate a b).Valid := by
  unfold maxDate
  split
  · exact hb
  · exact ha

theorem maxDate_leB_iff (a b x : Date) (ha : a.Valid) (hb : b.Valid) (hx : x.Valid) :
    dateLeB (maxDate a b) x = true ↔ (dateLeB a x = true ∧ dateLeB b x = true) := by
  unfold maxDate
  by_cases hab : dateLtB a b = true
  · rw [if_pos hab, dateLeB_iff_ord b x hb hx, dateLeB_iff_ord a x ha hx]
    have hlt := (dateLtB_iff_ord a b ha hb).mp hab
    constructor
    · intro h
      exact ⟨by omega, h⟩
    · exact fun h => h.2
  · rw [if_neg hab, dateLeB_iff_ord a x ha hx, dateLeB_iff_ord b x hb hx]
    have hba : toordinal b ≤ toordinal a := by
      rcases dateLtB_trichotomy a b with h1 | h1 | h1
      · exact absurd h1 hab
      · have := (dateLtB_iff_ord b a hb ha).mp h1
        omega
      · rw [h1]
    constructor
    · intro h
      exact ⟨h, by omega⟩
    · exact fun h => h.1

/-- With `count = None` the weekly loop is a plain filter of the window. -/
theorem weeklyLoop_none (cond : Date → Bool) :
    ∀ (ds : List Date) (sofar : Nat), weeklyLoop cond none ds sofar = ds.filter cond
  | [], _ => rfl
  | d :: ds, sofar => by
    rw [weeklyLoop, List.filter_cons]
    by_cases hc : cond d = true
    · simp [hc, countReached, weeklyLoop_none cond ds (sofar + 1)]
    · simp [hc, weeklyLoop_none cond ds sofar]

/-! ## Claim C7 -/

/-- C7: for an active uncapped weekly series, the expanded occurrence list
holds exactly the valid dates of the window `[max(start_from, start), hard
until]` whose weekday lies in the series' weekday set (the start date's own
weekday when none is configured) and whose week index — counted from the
Monday of the start date's week — is a multiple of the interval. -/
theorem weekly_expansion_spec (ser : TaskSeries) (startFrom untl s0 : Date)
    (hact : ser.active = true)
    (hs0 : parseDate ser.start_date = some s0)
    (hfreq : toLowerStr ser.frequency = "weekly")
    (hcnt : ser.count = none)
    (hwin : dateLtB (hardUntilOf ser untl) startFrom = false)
    (hvs : startFrom.Valid) (hv0 : s0.Valid) (hvu : (hardUntilOf ser untl).Valid)
    (l : List Date)
    (hexp : expandSeriesOccurrences ser startFrom untl = some l) :
    ∀ x : Date, x ∈ l ↔
      (x.Valid ∧ dateLeB startFrom x = true ∧ dateLeB s0 x = true ∧
       dateLeB x (hardUntilOf ser untl) = true ∧
       (effWeekdays ser s0).contains (weekdayOf x) = true ∧
       ((toordinal x - (toordinal s0 - weekdayOf s0)) / 7) % effInterval ser = 0) := by
  unfold expandSeriesOccurrences at hexp
  rw [hact, hs0, hcnt] at hexp
  simp only [Bool.not_true, Bool.false_eq_true, if_false, hwin, hfreq,
    beq_self_eq_true, if_true] at hexp
  injection hexp with hl
  intro x
  rw [← hl, weeklyLoop_none, List.mem_filter,
    mem_daterange _ _ (maxDate_valid hvs hv0) hvu]
  unfold weeklyCond
  constructor
  · rintro ⟨⟨hxv, hmax, hxu⟩, hcond⟩
    obtain ⟨hsx, h0x⟩ := (maxDate_leB_iff startFrom s0 x hvs hv0 hxv).mp hmax
    simp only [Bool.and_eq_true, beq_iff_eq] at hcond
    exact ⟨hxv, hsx, h0x, hxu, hcond.1.2, hcond.1.1⟩
  · rintro ⟨hxv, hsx, h0x, hxu, hwd, hmod⟩
    refine ⟨⟨hxv, (maxDate_leB_iff startFrom s0 x hvs hv0 hxv).mpr ⟨hsx, h0x⟩, hxu⟩, ?_⟩
    simp only [Bool.and_eq_true, beq_iff_eq]
    exact ⟨⟨hmod, hwd⟩, h0x⟩

set_option maxRecDepth 3000 in
/-- Witness for C7: the spec's weekly example — start 2024-01-01 (a Monday),
interval 1, no weekday set — expanded over [2024-01-01, 2024-01-22] yields
exactly the four Mondays, and the membership characterization holds for it. -/
theorem weekly_expansion_spec_witness :
    expandSeriesOccurrences exSeriesWeekly ⟨2024, 1, 1⟩ ⟨2024, 1, 22⟩ =
      some [⟨2024, 1, 1⟩, ⟨2024, 1, 8⟩, ⟨2024, 1, 15⟩, ⟨2024, 1, 22⟩] ∧
    (∀ x : Date,
      x ∈ [(⟨2024, 1, 1⟩ : Date), ⟨2024, 1, 8⟩, ⟨2024, 1, 15⟩, ⟨2024, 1, 22⟩] ↔
      (x.Valid ∧ dateLeB ⟨2024, 1, 1⟩ x = true ∧ dateLeB ⟨2024, 1, 1⟩ x = true ∧
       dateLeB x (hardUntilOf exSeriesWeekly ⟨2024, 1, 22⟩) = true ∧
       (effWeekdays exSeriesWeekly ⟨2024, 1, 1⟩).contains (weekdayOf x) = true ∧
       ((toordinal x - (toordinal (⟨2024, 1, 1⟩ : Date) - weekdayOf ⟨2024, 1, 1⟩)) / 7) %
          effInterval exSeriesWeekly = 0)) :=
  ⟨by decide,
    weekly_expansion_spec exSeriesWeekly ⟨2024, 1, 1⟩ ⟨2024, 1, 22⟩ ⟨2024, 1, 1⟩
      (by decide) (by decide) (by decide) (by decide) (by decide) (by decide) (by decide)
      (by decide) [⟨2024, 1, 1⟩, ⟨2024, 1, 8⟩, ⟨2024, 1, 15⟩, ⟨2024, 1, 22⟩] (by decide)⟩

/-! ## Claim C8 -/

theorem mem_monthlyEmit (cnt : Option Int) (s0 sf hu cur : Date) :
    ∀ (mds : List Nat) (gen : Nat) (d : Date),
      d ∈ (monthlyEmit cnt s0 sf hu cur mds gen).1 →
      ∃ md ∈ mds, d = ⟨cur.y, cur.m, min md (daysInMonth cur.y cur.m)⟩ ∧
        dateLtB d s0 = false ∧ dateLtB d sf = false ∧ dateLtB hu d = false
  | [], _, _, h => by simp [monthlyEmit] at h
  | md :: rest, gen, d, h => by
    rw [monthlyEmit] at h
    by_cases hskip : (dateLtB ⟨cur.y, cur.m, min md (daysInMonth cur.y cur.m)⟩ s0 ||
        dateLtB ⟨cur.y, cur.m, min md (daysInMonth cur.y cur.m)⟩ sf ||
        dateLtB hu ⟨cur.y, cur.m, min md (daysInMonth cur.y cur.m)⟩) = true
    · rw [if_pos hskip] at h
      obtain ⟨md', hmd', hrest⟩ := mem_monthlyEmit cnt s0 sf hu cur rest gen d h
      exact ⟨md', List.mem_cons_of_mem _ hmd', hrest⟩
    · rw [if_neg hskip] at h
      simp only [Bool.or_eq_true, not_or, Bool.not_eq_true] at hskip
      by_cases hcr : countReached cnt (gen + 1) = true
      · rw [if_pos hcr] at h
        simp only [List.mem_singleton] at h
        subst h
        exact ⟨md, List.mem_cons_self _ _, rfl, hskip.1.1, hskip.1.2, hskip.2⟩
      · rw [if_neg hcr] at h
        rcases List.mem_cons.mp h with rfl | h'
        · exact ⟨md, List.mem_cons_self _ _, rfl, hskip.1.1, hskip.1.2, hskip.2⟩
        · obtain ⟨md', hmd', hrest⟩ := mem_monthlyEmit cnt s0 sf hu cur rest (gen + 1) d h'
          exact ⟨md', List.mem_cons_of_mem _ hmd', hrest⟩

theorem mem_monthlyLoop (cnt : Option Int) (s0 sf hu : Date) (mds : List Nat) (k : Nat) :
    ∀ (fuel : Nat) (cur : Date) (gen : Nat) (d : Date),
      d ∈ monthlyLoop cnt s0 sf hu mds k fuel cur gen →
      ∃ y m, ∃ md ∈ mds, d = ⟨y, m, min md (daysInMonth y m)⟩ ∧
        dateLtB d s0 = false ∧ dateLtB d sf = false ∧ dateLtB hu d = false
  | 0, _, _, _, h => by simp [monthlyLoop] at h
  | fuel + 1, cur, gen, d, h => by
    rw [monthlyLoop] at h
    by_cases hle : dateLeB cur hu = true
    · rw [if_pos hle] at h
      by_cases hret : (monthlyEmit cnt s0 sf hu cur mds gen).2.2 = true
      · rw [if_pos hret] at h
        obtain ⟨md, hmd, hd⟩ := mem_monthlyEmit cnt s0 sf hu cur mds gen d h
        exact ⟨cur.y, cur.m, md, hmd, hd⟩
      · rw [if_neg hret] at h
        rcases List.mem_append.mp h with h1 | h1
        · obtain ⟨md, hmd, hd⟩ := mem_monthlyEmit cnt s0 sf hu cur mds gen d h1
          exact ⟨cur.y, cur.m, md, hmd, hd⟩
        · exact mem_monthlyLoop cnt s0 sf hu mds k fuel (addMonths cur k) _ d h1
    · rw [if_neg hle] at h
      simp at h

/-- C8: every occurrence an active monthly series with no configured
`bymonthday` expands to falls on the start date's day-of-month clamped to
the length of the occurrence's month, and lies in the window (on or after
the series start, on or after the expansion start, on or before the hard
end). -/
theorem monthly_clamp_spec (ser : TaskSeries) (startFrom untl s0 : Date)
    (hact : ser.active = true)
    (hs0 : parseDate ser.start_date = some s0)
    (hfreq : toLowerStr ser.frequency = "monthly")
    (hmd : ser.bymonthday = "")
    (l : List Date)
    (hexp : expandSeriesOccurrences ser startFrom untl = some l) :
    ∀ d ∈ l, d.d = min s0.d (daysInMonth d.y d.m) ∧
      dateLtB d s0 = false ∧ dateLtB d startFrom = false ∧
      dateLtB (hardUntilOf ser untl) d = false := by
  unfold expandSeriesOccurrences at hexp
  simp only [hact, hs0, Bool.not_true, Bool.false_eq_true, if_false] at hexp
  by_cases hwin : dateLtB (hardUntilOf ser untl) startFrom = true
  · rw [if_pos hwin] at hexp
    injection hexp with hl
    intro d hd
    rw [← hl] at hd
    simp at hd
  · rw [if_neg hwin] at hexp
    have hne : (("monthly" : String) == "weekly") = false := by decide
    have heq : (("monthly" : String) == "monthly") = true := by decide
    simp only [hfreq, hne, heq, Bool.false_eq_true, if_false, if_true] at hexp
    injection hexp with hl
    intro d hd
    rw [← hl] at hd
    obtain ⟨y, m, md, hmdm, hdeq, h1, h2, h3⟩ := mem_monthlyLoop ser.count s0 startFrom
      (hardUntilOf ser untl) (effMonthdays ser s0) (effInterval ser) _ _ _ d hd
    have hmds : effMonthdays ser s0 = [s0.d] := by
      unfold effMonthdays
      rw [hmd]
      simp
    rw [hmds] at hmdm
    simp only [List.mem_singleton] at hmdm
    subst hmdm
    refine ⟨?_, h1, h2, h3⟩
    rw [hdeq]

set_option maxRecDepth 3000 in
/-- Witness for C8: the spec's example — start 2024-01-31, monthly,
`bymonthday` unset — expanded into February 2024 yields exactly 2024-02-29,
and the clamp characterization holds for that occurrence. -/
theorem monthly_clamp_spec_witness :
    expandSeriesOccurrences exSeriesMonthly ⟨2024, 2, 1⟩ ⟨2024, 2, 29⟩ =
      some [⟨2024, 2, 29⟩] ∧
    (∀ d ∈ [(⟨2024, 2, 29⟩ : Date)],
      d.d = min (31 : Nat) (daysInMonth d.y d.m) ∧
      dateLtB d ⟨2024, 1, 31⟩ = false ∧ dateLtB d ⟨2024, 2, 1⟩ = false ∧
      dateLtB (hardUntilOf exSeriesMonthly ⟨2024, 2, 29⟩) d = false) :=
  ⟨by decide,
    monthly_clamp_spec exSeriesMonthly ⟨2024, 2, 1⟩ ⟨2024, 2, 29⟩ ⟨2024, 1, 31⟩
      (by decide) (by decide) (by decide) (by decide) [⟨2024, 2, 29⟩] (by decide)⟩

end App
